import Mathlib

/-!
Verification of the concurrent scrape orchestration and dedup layer of the
job-search-buddy repository.  Python strings are modelled as `List Char`,
fallible Python code (code that can raise) as `Option`/`Except`, and the
stateful rate limiter as an explicit fold over lock-acquisition times.
-/

namespace JobScraper

/-- Python strings are modelled as lists of characters. -/
abbrev Str := List Char

/-- Convenience: turn a Lean string literal into our `Str` model. -/
def chars (s : String) : Str := s.data

/-- Index of the first occurrence of `c` (Python `str.find`, `none` for `-1`). -/
def findChar (c : Char) : Str → Option Nat
  | [] => none
  | x :: xs => if x = c then some 0 else (findChar c xs).map (· + 1)

/-- Index of the last occurrence of `c` (Python `str.rfind`, `none` for `-1`). -/
def rfindChar (c : Char) (l : Str) : Option Nat :=
  match findChar c l.reverse with
  | none => none
  | some j => some (l.length - 1 - j)

/-- First occurrence of `c` at or after index `s` (Python `str.find(c, s)`). -/
def findCharFrom (c : Char) (s : Nat) (l : Str) : Option Nat :=
  (findChar c (l.drop s)).map (· + s)

/-!
## URL normalization (`airtable_client.py`, `normalize_url`)

`normalize_url` delegates to `urllib.parse.urlparse` / `urlunparse`.  The
definitions below embed the relevant control flow of CPython's
`urllib/parse.py` (`urlsplit`, `_splitnetloc`, `_splitparams`, `urlunsplit`):
scheme detection at the first `:`, netloc after a leading `//` up to the next
`/?#`, fragment after the first `#`, query after the first `?`, and the
parameter split on the last path segment.  The `ValueError` raised by
`urlsplit` on unbalanced `[`/`]` in the netloc is modelled by `Option`.
-/

/-- CPython `scheme_chars`: ASCII letters, digits and `+`, `-`, `.`. -/
def isSchemeChar (c : Char) : Bool :=
  c.isAlpha || c.isDigit || c = '+' || c = '-' || c = '.'

/-- CPython removes tab, CR and LF from the URL before splitting
(`_UNSAFE_URL_BYTES_TO_REMOVE`). -/
def removeUnsafe (u : Str) : Str :=
  u.filter (fun c => !(c = '\t' || c = '\r' || c = '\n'))

/-- Scheme split of `urlsplit`: the text before the first `:` is a scheme when
it is nonempty, starts with an ASCII letter and uses only scheme characters;
the scheme is lower-cased. -/
def splitScheme (u : Str) : Str × Str :=
  match findChar ':' u with
  | none => ([], u)
  | some i =>
    if 0 < i ∧ (u.headD ' ').isAlpha ∧ ((u.take i).drop 1).all isSchemeChar then
      ((u.take i).map Char.toLower, u.drop (i + 1))
    else ([], u)

/-- Stop characters ending a netloc in `_splitnetloc`. -/
def isNetlocStop (c : Char) : Bool :=
  c = '/' || c = '?' || c = '#'

/-- Netloc split of `urlsplit`: after a leading `//`, the netloc extends to the
next `/`, `?` or `#`. -/
def splitNetloc (u : Str) : Str × Str :=
  if u.take 2 = ['/', '/'] then
    ((u.drop 2).takeWhile (fun c => !isNetlocStop c),
     (u.drop 2).dropWhile (fun c => !isNetlocStop c))
  else ([], u)

/-- Split at the first occurrence of `c`, dropping the separator
(Python `str.split(c, 1)` under a `c in s` guard). -/
def splitOnFirst (c : Char) (u : Str) : Str × Str :=
  (u.takeWhile (fun x => x ≠ c), (u.dropWhile (fun x => x ≠ c)).drop 1)

/-- Result of `urlsplit`: scheme, netloc, path, query, fragment. -/
structure SplitResult where
  scheme : Str
  netloc : Str
  path : Str
  query : Str
  fragment : Str
  deriving DecidableEq, Repr

/-- Embedding of `urllib.parse.urlsplit` (with `allow_fragments=True`).
Returns `none` exactly where CPython raises `ValueError` ("Invalid IPv6 URL"):
when the netloc contains one bracket of `[`/`]` but not the other. -/
def urlsplit (u0 : Str) : Option SplitResult :=
  let u1 := removeUnsafe u0
  let sp := splitScheme u1
  let np := splitNetloc sp.2
  if (np.1.contains '[' && !np.1.contains ']') ||
     (np.1.contains ']' && !np.1.contains '[') then none
  else
    let fp := if np.2.contains '#' then splitOnFirst '#' np.2 else (np.2, [])
    let qp := if fp.1.contains '?' then splitOnFirst '?' fp.1 else (fp.1, [])
    some ⟨sp.1, np.1, qp.1, qp.2, fp.2⟩

/-- CPython `uses_params`: schemes whose last path segment may carry
`;parameters`. -/
def usesParams (scheme : Str) : Bool :=
  [chars "", chars "ftp", chars "hdl", chars "prospero", chars "http",
   chars "imap", chars "https", chars "shttp", chars "rtsp", chars "rtsps",
   chars "rtspu", chars "sip", chars "sips", chars "snews", chars "tel",
   chars "telnet", chars "urn", chars "wais"].contains scheme

/-- CPython `_splitparams`: split `;parameters` off the last path segment. -/
def splitParams (url : Str) : Str × Str :=
  match rfindChar '/' url with
  | some j =>
    match findCharFrom ';' j url with
    | none => (url, [])
    | some i => (url.take i, url.drop (i + 1))
  | none =>
    match findChar ';' url with
    | none => (url, [])
    | some i => (url.take i, url.drop (i + 1))

/-- Result of `urlparse`: scheme, netloc, path, params, query, fragment. -/
structure ParseResult where
  scheme : Str
  netloc : Str
  path : Str
  params : Str
  query : Str
  fragment : Str
  deriving DecidableEq, Repr

/-- Embedding of `urllib.parse.urlparse`: `urlsplit` followed by the params
split, applied only for schemes in `uses_params` when the path contains `;`. -/
def urlparse (u : Str) : Option ParseResult :=
  (urlsplit u).map fun r =>
    if usesParams r.scheme ∧ r.path.contains ';' then
      let pp := splitParams r.path
      ⟨r.scheme, r.netloc, pp.1, pp.2, r.query, r.fragment⟩
    else
      ⟨r.scheme, r.netloc, r.path, [], r.query, r.fragment⟩

/-- Embedding of `urllib.parse.urlunsplit`. -/
def urlunsplit (scheme netloc url query fragment : Str) : Str :=
  let url1 :=
    if netloc ≠ [] ∨ (url ≠ [] ∧ url.take 2 = ['/', '/']) then
      '/' :: '/' :: netloc ++
        (if url ≠ [] ∧ url.take 1 ≠ ['/'] then '/' :: url else url)
    else url
  let url2 := if scheme ≠ [] then scheme ++ ':' :: url1 else url1
  let url3 := if query ≠ [] then url2 ++ '?' :: query else url2
  if fragment ≠ [] then url3 ++ '#' :: fragment else url3

/-- Embedding of `urllib.parse.urlunparse`. -/
def urlunparse (scheme netloc url params query fragment : Str) : Str :=
  urlunsplit scheme netloc
    (if params ≠ [] then url ++ ';' :: params else url) query fragment

/-- Embedding of `normalize_url` (airtable_client.py): empty input is returned
as-is; otherwise the URL is parsed and rebuilt from scheme, netloc and path
only, with params, query and fragment replaced by empty strings.  `none`
models the (propagated) `ValueError` of `urlparse`. -/
def normalize_url (u : Str) : Option Str :=
  if u = [] then some u
  else (urlparse u).map fun p => urlunparse p.scheme p.netloc p.path [] [] []

example : normalize_url (chars "https://example.com/job?id=123#section") =
    some (chars "https://example.com/job") := by decide

example : normalize_url (chars "https://example.com/job") =
    some (chars "https://example.com/job") := by decide

example : normalize_url (chars "HTTP://Example.com/A/b?q=1") =
    some (chars "http://Example.com/A/b") := by decide

example : normalize_url (chars "no scheme here") = some (chars "no scheme here") := by
  decide

example : normalize_url (chars "http://[::1/oops") = none := by decide

/-!
## JSON values and `json.loads`

`_parse_records` (main.py / career_sites_scraper.py) feeds a candidate
substring to `json.loads`.  The parser below embeds the grammar accepted by
CPython's `json` module: objects, arrays, strings with escapes, numbers
(kept as their raw token, which is lossless), `true`/`false`/`null` and the
special constants `NaN`/`Infinity`/`-Infinity`.  A failed parse (Python
`JSONDecodeError`) is `none`.  Object members are kept as the parsed
association list. -/

/-- Parsed JSON value. -/
inductive Json where
  | null : Json
  | bool (b : Bool) : Json
  | num (raw : Str) : Json
  | str (s : Str) : Json
  | arr (elems : List Json) : Json
  | obj (members : List (Str × Json)) : Json
  deriving BEq, Repr

/-- JSON whitespace characters (CPython `_w`). -/
def isJsonWS (c : Char) : Bool :=
  c = ' ' || c = '\t' || c = '\n' || c = '\r'

/-- Test for a hex digit. -/
def isHexDig (c : Char) : Bool :=
  c.isDigit || ('a' ≤ c ∧ c ≤ 'f') || ('A' ≤ c ∧ c ≤ 'F')

/-- Value of a hex digit. -/
def hexVal (c : Char) : Nat :=
  if c.isDigit then c.toNat - 48
  else if 'a' ≤ c ∧ c ≤ 'f' then c.toNat - 87
  else if 'A' ≤ c ∧ c ≤ 'F' then c.toNat - 55
  else 0

/-- Decode of a 4-digit hex escape. -/
def hex4 (a b c d : Char) : Nat :=
  ((hexVal a * 16 + hexVal b) * 16 + hexVal c) * 16 + hexVal d

/-- JSON number token, the regex `-?(0|[1-9]\d+|[1-9])(\.\d+)?([eE][+-]?\d+)?`
applied with maximal munch as in CPython's `NUMBER_RE.match`.  Returns the raw
matched token and the rest, or `none` when the regex does not match. -/
def parseNumber (s : Str) : Option (Str × Str) :=
  let signed := s.head? = some '-'
  let s1 := if signed then s.drop 1 else s
  let ip : Option (Str × Str) :=
    match s1 with
    | '0' :: r => some (['0'], r)
    | c :: r =>
      if c.isDigit then some (c :: r.takeWhile Char.isDigit, r.dropWhile Char.isDigit)
      else none
    | [] => none
  match ip with
  | none => none
  | some (intPart, s2) =>
    let fr : Str × Str :=
      match s2 with
      | '.' :: r =>
        if (r.head?.map Char.isDigit).getD false then
          ('.' :: r.takeWhile Char.isDigit, r.dropWhile Char.isDigit)
        else ([], s2)
      | _ => ([], s2)
    let s3 := fr.2
    let ex : Str × Str :=
      match s3 with
      | e :: r =>
        if e = 'e' ∨ e = 'E' then
          let sg := if r.head? = some '+' ∨ r.head? = some '-' then r.take 1 else []
          let r2 := if sg = [] then r else r.drop 1
          if (r2.head?.map Char.isDigit).getD false then
            (e :: sg ++ r2.takeWhile Char.isDigit, r2.dropWhile Char.isDigit)
          else ([], s3)
        else ([], s3)
      | [] => ([], s3)
    some ((if signed then ['-'] else []) ++ intPart ++ fr.1 ++ ex.1, ex.2)

/-- JSON string body parser (after the opening quote), strict mode: raw
control characters below `0x20` are rejected, escapes `\" \\ \/ \b \f \n \r
\t \uXXXX` are decoded, and `\uXXXX` surrogate pairs are combined. -/
def parseJString : Nat → Str → Option (Str × Str)
  | 0, _ => none
  | _, [] => none
  | fuel + 1, c :: rest =>
    if c = '"' then some ([], rest)
    else if c = '\\' then
      match rest with
      | [] => none
      | e :: rest2 =>
        if e = 'u' then
          match rest2 with
          | a :: b :: c2 :: d :: rest3 =>
            if isHexDig a && isHexDig b && isHexDig c2 && isHexDig d then
              let n := hex4 a b c2 d
              if 0xD800 ≤ n ∧ n ≤ 0xDBFF then
                match rest3 with
                | '\\' :: 'u' :: a2 :: b2 :: c3 :: d2 :: rest4 =>
                  if isHexDig a2 && isHexDig b2 && isHexDig c3 && isHexDig d2
                      && decide (0xDC00 ≤ hex4 a2 b2 c3 d2)
                      && decide (hex4 a2 b2 c3 d2 ≤ 0xDFFF) then
                    let m := hex4 a2 b2 c3 d2
                    (parseJString fuel rest4).map fun p =>
                      (Char.ofNat (0x10000 + (n - 0xD800) * 0x400 + (m - 0xDC00)) :: p.1, p.2)
                  else
                    (parseJString fuel rest3).map fun p => (Char.ofNat n :: p.1, p.2)
                | _ =>
                  (parseJString fuel rest3).map fun p => (Char.ofNat n :: p.1, p.2)
              else
                (parseJString fuel rest3).map fun p => (Char.ofNat n :: p.1, p.2)
            else none
          | _ => none
        else
          let dec : Option Char :=
            if e = '"' then some '"'
            else if e = '\\' then some '\\'
            else if e = '/' then some '/'
            else if e = 'b' then some (Char.ofNat 8)
            else if e = 'f' then some (Char.ofNat 12)
            else if e = 'n' then some '\n'
            else if e = 'r' then some '\r'
            else if e = 't' then some '\t'
            else none
          match dec with
          | none => none
          | some ch => (parseJString fuel rest2).map fun p => (ch :: p.1, p.2)
    else if c.toNat < 0x20 then none
    else (parseJString fuel rest).map fun p => (c :: p.1, p.2)

mutual

/-- One JSON value at the current position (CPython `scan_once`: no leading
whitespace skip). -/
def parseValue : Nat → Str → Option (Json × Str)
  | 0, _ => none
  | fuel + 1, s =>
    match s with
    | [] => none
    | c :: rest =>
      if c = '"' then (parseJString (fuel + 1) rest).map fun p => (Json.str p.1, p.2)
      else if c = '{' then parseMembers fuel rest
      else if c = '[' then parseElems fuel rest
      else if s.take 4 = chars "null" then some (Json.null, s.drop 4)
      else if s.take 4 = chars "true" then some (Json.bool true, s.drop 4)
      else if s.take 5 = chars "false" then some (Json.bool false, s.drop 5)
      else
        match parseNumber s with
        | some p => some (Json.num p.1, p.2)
        | none =>
          if s.take 3 = chars "NaN" then some (Json.num (chars "NaN"), s.drop 3)
          else if s.take 8 = chars "Infinity" then
            some (Json.num (chars "Infinity"), s.drop 8)
          else if s.take 9 = chars "-Infinity" then
            some (Json.num (chars "-Infinity"), s.drop 9)
          else none

/-- Array elements after the opening `[` (CPython `JSONArray`). -/
def parseElems : Nat → Str → Option (Json × Str)
  | 0, _ => none
  | fuel + 1, s =>
    let s1 := s.dropWhile isJsonWS
    if s1.head? = some ']' then some (Json.arr [], s1.drop 1)
    else
      match parseValue fuel s1 with
      | none => none
      | some (v, r) => parseElemsLoop fuel [v] r

/-- Comma-separated continuation of an array. -/
def parseElemsLoop : Nat → List Json → Str → Option (Json × Str)
  | 0, _, _ => none
  | fuel + 1, acc, s =>
    let s1 := s.dropWhile isJsonWS
    match s1 with
    | ']' :: r => some (Json.arr acc.reverse, r)
    | ',' :: r =>
      match parseValue fuel (r.dropWhile isJsonWS) with
      | none => none
      | some (v, r2) => parseElemsLoop fuel (v :: acc) r2
    | _ => none

/-- Object members after the opening brace (CPython `JSONObject`, strict). -/
def parseMembers : Nat → Str → Option (Json × Str)
  | 0, _ => none
  | fuel + 1, s =>
    let s1 := s.dropWhile isJsonWS
    match s1 with
    | '}' :: r => some (Json.obj [], r)
    | '"' :: r =>
      match parseJString (fuel + 1) r with
      | none => none
      | some (k, r2) => parseMemberValue fuel [] k r2
    | _ => none

/-- Parse `: value` after a member key, then continue the member list. -/
def parseMemberValue : Nat → List (Str × Json) → Str → Str → Option (Json × Str)
  | 0, _, _, _ => none
  | fuel + 1, acc, k, s =>
    let s1 := s.dropWhile isJsonWS
    match s1 with
    | ':' :: r =>
      match parseValue fuel (r.dropWhile isJsonWS) with
      | none => none
      | some (v, r2) => parseMembersLoop fuel ((k, v) :: acc) r2
    | _ => none

/-- Comma-separated continuation of an object member list. -/
def parseMembersLoop : Nat → List (Str × Json) → Str → Option (Json × Str)
  | 0, _, _ => none
  | fuel + 1, acc, s =>
    let s1 := s.dropWhile isJsonWS
    match s1 with
    | '}' :: r => some (Json.obj acc.reverse, r)
    | ',' :: r =>
      let r1 := r.dropWhile isJsonWS
      match r1 with
      | '"' :: r2 =>
        match parseJString (fuel + 1) r2 with
        | none => none
        | some (k, r3) => parseMemberValue fuel acc k r3
      | _ => none
    | _ => none

end

/-- Embedding of `json.loads`: skip leading whitespace, scan one value, allow
trailing whitespace only ("Extra data" otherwise). -/
def json_loads (s : Str) : Option Json :=
  let t := s.dropWhile isJsonWS
  match parseValue (2 * t.length + 4) t with
  | none => none
  | some (v, rest) => if rest.dropWhile isJsonWS = [] then some v else none

example : json_loads (chars "[1, 2, 3]") =
    some (Json.arr [Json.num ['1'], Json.num ['2'], Json.num ['3']]) := by rfl

example : json_loads (chars " \x7b\"a\": [true, null], \"b\": -1.5e3\x7d ") =
    some (Json.obj [(['a'], Json.arr [Json.bool true, Json.null]),
                    (['b'], Json.num (chars "-1.5e3"))]) := by rfl

example : json_loads (chars "[1, 2,]") = none := by rfl

example : json_loads (chars "[1] extra") = none := by rfl

example : json_loads (chars "01") = none := by rfl

/-!
## Output parsing (`_parse_records` in main.py / career_sites_scraper.py)
-/

/-- Characters stripped by Python `str.strip()` (the ASCII ones; agent output
is modelled as ASCII-whitespace-delimited text). -/
def isPyWS (c : Char) : Bool :=
  c = ' ' || c = '\t' || c = '\n' || c = '\r' || c.toNat = 11 || c.toNat = 12

/-- Python `str.strip()`. -/
def pyStrip (s : Str) : Str :=
  ((s.dropWhile isPyWS).reverse.dropWhile isPyWS).reverse

/-- Embedding of `_parse_records`: falsy input gives `None`; otherwise the
stripped text is taken whole as JSON candidate when it starts with `[` and
ends with `]`, else the substring from the first `[` to the last `]`; the
candidate must `json.loads` to a list. -/
def parse_records (t : Str) : Option (List Json) :=
  if t = [] then none
  else
    let stripped := pyStrip t
    let cand : Option Str :=
      if stripped.head? = some '[' ∧ stripped.getLast? = some ']' then some stripped
      else
        match findChar '[' stripped, rfindChar ']' stripped with
        | some i, some j =>
          if j ≤ i then none else some ((stripped.drop i).take (j - i + 1))
        | some _, none => none
        | none, _ => none
    match cand with
    | none => none
    | some c =>
      match json_loads c with
      | some (Json.arr xs) => some xs
      | _ => none

example : parse_records
    (chars "Sure, here:\n```json\n[\x7b\"Link\":\"x\"\x7d]\n```\nDone.") =
    some [Json.obj [(chars "Link", Json.str ['x'])]] := by rfl

example : parse_records (chars "no json here") = none := by rfl

example : parse_records (chars "  [1, 2]  ") = some [Json.num ['1'], Json.num ['2']] := by
  rfl

/-!
## Dedup merge (`airtable_client.py`, `AirtableClient.create_records`)

A job record is modelled by its `Link` field (after `_normalize_record`,
which unwraps a `fields` wrapper and rewrites only the `Requirements` field,
leaving `Link` untouched) plus an opaque tag standing for the remaining
fields.  The pyairtable calls are modelled by an explicit `store` function;
exceptions escaping `create_records` (a failing `batch_create`, or a
`ValueError` from `normalize_url`) are `Except.error`.
-/

/-- An incoming record as seen by `create_records`: its `Link` field (after
`_normalize_record`) and an opaque stand-in for the other fields. -/
structure JobRec where
  link : Option Str
  tag : Nat
  deriving DecidableEq, Repr

/-- Python truthiness of an optional string field: missing and empty are
falsy. -/
def linkTruthy : Option Str → Bool
  | none => false
  | some s => !s.isEmpty

/-- Result dictionary of `create_records`. -/
structure CreateResult where
  created : Nat
  skipped : Nat
  records : List JobRec
  deriving DecidableEq, Repr

/-- The set of normalized existing links: `normalize_url(r["fields"].get("Link"))`
for every existing record with a truthy link (`none` when any normalization
raises). -/
def buildIndex : List (Option Str) → Except Str (List Str)
  | [] => .ok []
  | l :: rest =>
    if linkTruthy l then
      match normalize_url (l.getD []) with
      | none => .error (chars "ValueError")
      | some nl => (buildIndex rest).map fun idx => nl :: idx
    else buildIndex rest

/-- The duplicate filter loop of `create_records`: a record is skipped when
its link is truthy and its normalized link is in the existing index,
otherwise it is kept.  Returns the kept records and the skipped count, or an
error when `normalize_url` raises. -/
def dedupLoop (idx : List Str) : List JobRec → Except Str (List JobRec × Nat)
  | [] => .ok ([], 0)
  | r :: rest =>
    if linkTruthy r.link then
      match normalize_url (r.link.getD []) with
      | none => .error (chars "ValueError")
      | some nl =>
        if idx.contains nl then
          (dedupLoop idx rest).map fun p => (p.1, p.2 + 1)
        else
          (dedupLoop idx rest).map fun p => (r :: p.1, p.2)
    else
      (dedupLoop idx rest).map fun p => (r :: p.1, p.2)

/-- Embedding of `AirtableClient.create_records`.  `existing` is the list of
`Link` fields of the already-stored records; `store` models
`table.batch_create` (its exceptions propagate).  The `created` count is the
length of the list the store returned. -/
def create_records (store : List JobRec → Except Str (List JobRec))
    (existing : List (Option Str)) (records : List JobRec) :
    Except Str CreateResult :=
  if records = [] then .ok ⟨0, 0, []⟩
  else do
    let idx ← buildIndex existing
    let (newRecords, skipped) ← dedupLoop idx records
    if newRecords = [] then
      .ok ⟨0, skipped, []⟩
    else do
      let created ← store newRecords
      .ok ⟨created.length, skipped, created⟩

/-- Chunks of ten, as produced by `for i in range(0, len(updates), 10)`. -/
def chunksOf10 (l : List JobRec) : List (List JobRec) :=
  if l = [] then []
  else l.take 10 :: chunksOf10 (l.drop 10)
termination_by l.length
decreasing_by
  simp only [List.length_drop]
  have : l.length ≠ 0 := fun h => by
    simp_all [List.length_eq_zero]
  omega

/-- Embedding of `AirtableClient.batch_update_records`: the updates are sent
in chunks of 10; a chunk whose `store` call raises is logged and skipped, and
processing continues with the next chunk. -/
def batch_update_records (store : List JobRec → Except Str (List JobRec))
    (updates : List JobRec) : List JobRec :=
  if updates = [] then []
  else
    (match store (updates.take 10) with
     | .ok rs => rs
     | .error _ => []) ++ batch_update_records store (updates.drop 10)
termination_by updates.length
decreasing_by
  simp only [List.length_drop]
  have : updates.length ≠ 0 := fun h => by
    simp_all [List.length_eq_zero]
  omega

/-!
## Rate limiter (`agent_runner.py`, `AsyncRateLimiter.acquire`)

Each pass through the critical section of `acquire` reads `now`, pops
expired timestamps from the front of the deque, and either appends `now` and
returns (success) or releases the lock and sleeps (failure).  Times come
from the event loop's monotonic clock, so the sequence of critical-section
entry times is nondecreasing.  An execution is modelled as a fold over that
time sequence; the model returns the final deque and the completion times of
successful acquisitions. -/

/-- The pop-from-the-front loop of `acquire`: discard timestamps with
`ts <= now - window_seconds`. -/
def pruneOld (W now : ℚ) (ts : List ℚ) : List ℚ :=
  ts.dropWhile (fun t => t ≤ now - W)

/-- One critical-section pass of `acquire` at time `now`: prune, then append
`now` and succeed if fewer than `max_requests` timestamps remain. -/
def acquireStep (N : Nat) (W : ℚ) (ts : List ℚ) (now : ℚ) : List ℚ × Bool :=
  let ts1 := pruneOld W now ts
  if ts1.length < N then (ts1 ++ [now], true) else (ts1, false)

/-- One fold step: update the deque and record the completion time on
success. -/
def limStep (N : Nat) (W : ℚ) (acc : List ℚ × List ℚ) (now : ℚ) :
    List ℚ × List ℚ :=
  let st := acquireStep N W acc.1 now
  (st.1, if st.2 then acc.2 ++ [now] else acc.2)

/-- Fold the limiter over a sequence of critical-section entry times,
accumulating the deque and the successful completion times. -/
def runLimiter (N : Nat) (W : ℚ) (times : List ℚ) : List ℚ × List ℚ :=
  times.foldl (limStep N W) ([], [])

/-!
## Retry executor (`agent_runner.py`, `AgentRunner.run_agent_with_retry`)
-/

/-- Error raised by one attempt of the underlying agent call:
`RateLimitError` is retried, anything else propagates immediately. -/
inductive AgentErr where
  | rateLimit (msg : Str) : AgentErr
  | other (msg : Str) : AgentErr
  deriving DecidableEq, Repr

/-- Terminal failure of `run_agent_with_retry`: the final
`RuntimeError("OpenAI rate limit retries exhausted") from last_error`, or an
immediately propagated non-rate-limit exception. -/
inductive RetryFailure where
  | exhausted (last : Option AgentErr) : RetryFailure
  | propagated (e : AgentErr) : RetryFailure
  deriving DecidableEq, Repr

/-- The `for attempt in range(max_retries + 1)` loop body of
`run_agent_with_retry`, also counting how many times `op` is invoked.
`op attempt` models one `run_agent_streamed` call. -/
def retryGo {α : Type} (op : Nat → Except AgentErr α) (maxRetries : Nat) :
    List Nat → Option AgentErr → Except RetryFailure α × Nat
  | [], last => (.error (.exhausted last), 0)
  | attempt :: rest, _ =>
    match op attempt with
    | .ok a => (.ok a, 1)
    | .error (.other m) => (.error (.propagated (.other m)), 1)
    | .error (.rateLimit m) =>
      if attempt = maxRetries then (.error (.exhausted (some (.rateLimit m))), 1)
      else
        let r := retryGo op maxRetries rest (some (.rateLimit m))
        (r.1, r.2 + 1)

/-- Embedding of `run_agent_with_retry`: run the attempt loop over
`range(max_retries + 1)` starting with `last_error = None`.  Returns the
outcome and the number of `op` invocations. -/
def run_agent_with_retry {α : Type} (op : Nat → Except AgentErr α)
    (maxRetries : Nat) : Except RetryFailure α × Nat :=
  retryGo op maxRetries (List.range (maxRetries + 1)) none

/-!
## Source task (`main.py` / `career_sites_scraper.py`, `scrape_source`)

One attempt of the build-prompt/call/parse cycle either raises an exception
that the `except (asyncio.TimeoutError, ConnectionError, RuntimeError)`
clause catches (transport class), raises something else (propagates to the
caller), or returns an agent result whose `final_output` is an optional
string that is then parsed with `_parse_records`. -/

/-- Exception raised by `run_agent_with_task` during one attempt. -/
inductive CallErr where
  | caught (msg : Str) : CallErr
  | uncaught (msg : Str) : CallErr
  deriving DecidableEq, Repr

/-- Records extracted from one successful call: `_parse_records(final_output)`
when `final_output` is truthy, else `None`. -/
def attemptRecords (out : Option Str) : Option (List Json) :=
  match out with
  | none => none
  | some o => if o.isEmpty then none else parse_records o

/-- Embedding of `scrape_source` with its literal `max_retries = 1` budget:
`att n` is the outcome of attempt `n` of the call.  Returns the task result
(`Except` for a propagated exception) and the number of attempts executed. -/
def scrape_source (att : Nat → Except CallErr (Option Str)) :
    Except Str (List Json) × Nat :=
  match att 0 with
  | .error (.uncaught m) => (.error m, 1)
  | .error (.caught _) =>
    -- attempt 0 is not the last attempt, so the loop continues
    (match att 1 with
     | .error (.uncaught m) => (.error m, 2)
     | .error (.caught _) => (.ok [], 2)
     | .ok out =>
       match attemptRecords out with
       | some rs => if rs.isEmpty then (.ok [], 2) else (.ok rs, 2)
       | none => (.ok [], 2))
  | .ok out =>
    match attemptRecords out with
    | some rs =>
      if rs.isEmpty then
        (match att 1 with
         | .error (.uncaught m) => (.error m, 2)
         | .error (.caught _) => (.ok [], 2)
         | .ok out1 =>
           match attemptRecords out1 with
           | some rs1 => if rs1.isEmpty then (.ok [], 2) else (.ok rs1, 2)
           | none => (.ok [], 2))
      else (.ok rs, 1)
    | none =>
      (match att 1 with
       | .error (.uncaught m) => (.error m, 2)
       | .error (.caught _) => (.ok [], 2)
       | .ok out1 =>
         match attemptRecords out1 with
         | some rs1 => if rs1.isEmpty then (.ok [], 2) else (.ok rs1, 2)
         | none => (.ok [], 2))

/-!
## Orchestrator (`main.py`, `scrape_sources`)

`asyncio.gather(*tasks, return_exceptions=True)` yields one outcome per
relevant source, in task creation order (source-index order), regardless of
completion order.  The processing loop is modelled over that outcome list;
the `console.print` error reports are modelled by the returned list of
failing source indices. -/

/-- One source row: the value of the current column
(`source.get("fields", {}).get(column_name)`). -/
structure SourceRec where
  url : Option Str
  deriving DecidableEq, Repr

/-- The filter `[s for s in sources if s.get("fields", {}).get(column_name)]`. -/
def relevantSources (sources : List SourceRec) : List SourceRec :=
  sources.filter (fun s => linkTruthy s.url)

/-- The result-processing loop of `scrape_sources` (`for i, res in
enumerate(results)`), from index `i` on: successful task results are
appended to the aggregate in index order, failures are reported by index. -/
def processResultsFrom (i : Nat) :
    List (Except Str (List Json)) → List Json × List Nat
  | [] => ([], [])
  | .ok recs :: rest =>
    let p := processResultsFrom (i + 1) rest
    (recs ++ p.1, p.2)
  | .error _ :: rest =>
    let p := processResultsFrom (i + 1) rest
    (p.1, i :: p.2)

/-- The result-processing loop of `scrape_sources`: successful task results
are concatenated in index order, failures are reported by index. -/
def processResults (outcomes : List (Except Str (List Json))) :
    List Json × List Nat :=
  processResultsFrom 0 outcomes

/-- Embedding of `scrape_sources`: filter the relevant sources, run one task
per source (`taskOf` gives each task's outcome; an `Except.error` models a
raised exception collected by `return_exceptions=True`), and process the
outcomes in source-index order. -/
def scrape_sources (sources : List SourceRec)
    (taskOf : SourceRec → Except Str (List Json)) : List Json × List Nat :=
  processResults ((relevantSources sources).map taskOf)

/-!
## Specification-side vocabulary

Definitions used to state the claims (classification predicates and the
spec's wording of the parser algorithm), to be compared with the code-side
definitions above. -/

/-- The spec's wording of the output parser: trim whitespace; take the whole
trimmed string as candidate when it starts with `[` and ends with `]`,
otherwise the substring from the first `[` to the last `]`; return the
parsed value exactly when the candidate parses as a JSON array, and `null`
when no bracket pair exists, JSON parsing fails, or the value is not an
array. -/
def parseRecordsSpec (t : Str) : Option (List Json) :=
  let stripped := pyStrip t
  let cand : Option Str :=
    if stripped.head? = some '[' ∧ stripped.getLast? = some ']' then some stripped
    else
      match findChar '[' stripped, rfindChar ']' stripped with
      | some i, some j =>
        if j ≤ i then none else some ((stripped.drop i).take (j - i + 1))
      | some _, none => none
      | none, _ => none
  match cand with
  | none => none
  | some c =>
    match json_loads c with
    | some (Json.arr xs) => some xs
    | _ => none

/-- A record is a duplicate of the existing index when its link is truthy
and its normalized link is a member of the index. -/
def isDupRec (idx : List Str) (r : JobRec) : Bool :=
  linkTruthy r.link &&
    (match normalize_url (r.link.getD []) with
     | some nl => idx.contains nl
     | none => false)

/-- Classification of one `scrape_source` attempt: `some rs` when the call
returned and parsing produced a nonempty record list. -/
def goodOutcome (r : Except CallErr (Option Str)) : Option (List Json) :=
  match r with
  | .ok out =>
    match attemptRecords out with
    | some rs => if rs.isEmpty then none else some rs
    | none => none
  | .error _ => none

/-- The message of an uncaught (non-transport-class) attempt exception. -/
def uncaughtMsg : Except CallErr (Option Str) → Option Str
  | .error (.uncaught m) => some m
  | _ => none

/-- Invariant of the rate-limiter state after processing a time sequence
whose last lock-acquisition time is `last`: the deque is short and sorted,
all times are in the past, recent successes are accounted for in the deque,
and no window of length `W` holds more than `N` successes. -/
structure LimInv (N : Nat) (W : ℚ) (st succ : List ℚ) (last : ℚ) : Prop where
  len_le : st.length ≤ N
  sorted : st.Pairwise (· ≤ ·)
  st_le : ∀ t ∈ st, t ≤ last
  succ_le : ∀ s ∈ succ, s ≤ last
  count_le : ∀ c : ℚ, last - W ≤ c →
    succ.countP (fun s => decide (c < s)) ≤ st.countP (fun s => decide (c < s))
  window : ∀ a : ℚ, succ.countP (fun s => decide (a < s ∧ s ≤ a + W)) ≤ N

/-- Well-formedness of the components produced by `urlparse`, as needed to
show that re-parsing the rebuilt URL is the identity. -/
structure GoodParse (p : ParseResult) : Prop where
  scheme_ok : p.scheme = [] ∨
    ((p.scheme.headD ' ').isAlpha = true ∧ p.scheme.all isSchemeChar = true ∧
     p.scheme.map Char.toLower = p.scheme)
  netloc_stop : ∀ c ∈ p.netloc, isNetlocStop c = false
  netloc_safe : ∀ c ∈ p.netloc, ¬(c = '\t' ∨ c = '\r' ∨ c = '\n')
  netloc_brackets :
    ((p.netloc.contains '[' && !p.netloc.contains ']') ||
     (p.netloc.contains ']' && !p.netloc.contains '[')) = false
  path_ok : ∀ c ∈ p.path, c ≠ '#' ∧ c ≠ '?' ∧ ¬(c = '\t' ∨ c = '\r' ∨ c = '\n')
  netloc_path : p.netloc ≠ [] → p.path = [] ∨ p.path.head? = some '/'
  params_clean : usesParams p.scheme = true → p.path.contains ';' = true →
    splitParams p.path = (p.path, [])
  no_scheme_path : p.scheme = [] → p.netloc = [] → splitScheme p.path = ([], p.path)

/-- Well-formedness of the components produced by `urlsplit` (the analogue of
`GoodParse` one stage earlier). -/
structure GoodSplit (r : SplitResult) : Prop where
  scheme_ok : r.scheme = [] ∨
    ((r.scheme.headD ' ').isAlpha = true ∧ r.scheme.all isSchemeChar = true ∧
     r.scheme.map Char.toLower = r.scheme)
  netloc_stop : ∀ c ∈ r.netloc, isNetlocStop c = false
  netloc_safe : ∀ c ∈ r.netloc, ¬(c = '\t' ∨ c = '\r' ∨ c = '\n')
  netloc_brackets :
    ((r.netloc.contains '[' && !r.netloc.contains ']') ||
     (r.netloc.contains ']' && !r.netloc.contains '[')) = false
  path_ok : ∀ c ∈ r.path, c ≠ '#' ∧ c ≠ '?' ∧ ¬(c = '\t' ∨ c = '\r' ∨ c = '\n')
  netloc_path : r.netloc ≠ [] → r.path = [] ∨ r.path.head? = some '/'
  no_scheme_path : r.scheme = [] → r.netloc = [] → splitScheme r.path = ([], r.path)

/-!
## Theorems

### C3: retry termination and terminal error
-/

lemma retryGo_rateLimit {α : Type} (op : Nat → Except AgentErr α) (maxRetries : Nat)
    (h : ∀ n, ∃ m, op n = .error (.rateLimit m)) :
    ∀ (k a : Nat) (last : Option AgentErr), a + k = maxRetries →
      ∃ m, op maxRetries = Except.error (.rateLimit m) ∧
        retryGo op maxRetries (List.range' a (k + 1)) last =
          (.error (.exhausted (some (.rateLimit m))), k + 1) := by
  intro k
  induction k with
  | zero =>
    intro a last ha
    obtain ⟨m, hm⟩ := h a
    have haeq : a = maxRetries := by omega
    subst haeq
    exact ⟨m, hm, by simp [List.range', retryGo, hm]⟩
  | succ k ih =>
    intro a last ha
    obtain ⟨m0, hm0⟩ := h a
    obtain ⟨m, hm, hrec⟩ := ih (a + 1) (some (.rateLimit m0)) (by omega)
    have hne : a ≠ maxRetries := by omega
    refine ⟨m, hm, ?_⟩
    have hr : List.range' a (k + 1 + 1) = a :: List.range' (a + 1) (k + 1) := rfl
    rw [hr]
    generalize hrest : List.range' (a + 1) (k + 1) = rest at hrec ⊢
    simp [retryGo, hm0, hne, hrec]

/-- C3: for every operation `op` that raises a rate-limit (quota) error on
every invocation, `run_agent_with_retry` with retry budget `maxRetries`
invokes `op` exactly `maxRetries + 1` times and then raises the terminal
retries-exhausted error wrapping the last cause; it neither loops forever
nor stops earlier. -/
theorem run_agent_with_retry_exhausts {α : Type} (op : Nat → Except AgentErr α)
    (maxRetries : Nat) (h : ∀ n, ∃ m, op n = .error (.rateLimit m)) :
    ∃ m, op maxRetries = Except.error (.rateLimit m) ∧
      run_agent_with_retry op maxRetries =
        (.error (.exhausted (some (.rateLimit m))), maxRetries + 1) := by
  have hmain := retryGo_rateLimit op maxRetries h maxRetries 0 none (by omega)
  rw [run_agent_with_retry, List.range_eq_range']
  exact hmain

/-- Witness for C3 at `maxRetries = 2` and an always-quota-failing operation. -/
theorem run_agent_with_retry_exhausts_witness :
    run_agent_with_retry
        (fun _ => (.error (.rateLimit (chars "quota")) : Except AgentErr Unit)) 2 =
      (.error (.exhausted (some (.rateLimit (chars "quota")))), 3) := by
  obtain ⟨m, hm, hrun⟩ := run_agent_with_retry_exhausts
    (fun _ => (.error (.rateLimit (chars "quota")) : Except AgentErr Unit)) 2
    (fun _ => ⟨chars "quota", rfl⟩)
  have hmeq : chars "quota" = m := by
    simpa using hm
  rw [← hmeq] at hrun
  exact hrun

/-!
### C1: fan-out failure isolation with deterministic ordering
-/

lemma processResultsFrom_spec (outs : List (Except Str (List Json))) : ∀ i,
    processResultsFrom i outs =
      ((outs.filterMap Except.toOption).flatten,
       (outs.enumFrom i).filterMap fun p =>
         match p.2 with
         | .ok _ => none
         | .error _ => some p.1) := by
  induction outs with
  | nil => intro i; rfl
  | cons x rest ih =>
    intro i
    cases x with
    | ok recs => simp [processResultsFrom, ih, List.enumFrom, Except.toOption]
    | error e => simp [processResultsFrom, ih, List.enumFrom, Except.toOption]

/-- C1: for every list of sources and any assignment of task outcomes (an
`Except.error` models a task that raised), `scrape_sources` returns the
concatenation of the record lists of all non-failing relevant sources, in
source-index order, and reports exactly the indices of the failing sources;
a failure never removes or corrupts the results of sibling tasks. -/
theorem scrape_sources_isolation (sources : List SourceRec)
    (taskOf : SourceRec → Except Str (List Json)) :
    (scrape_sources sources taskOf).1 =
      (((relevantSources sources).map taskOf).filterMap Except.toOption).flatten ∧
    (scrape_sources sources taskOf).2 =
      ((relevantSources sources).map taskOf).enum.filterMap fun p =>
        match p.2 with
        | .ok _ => none
        | .error _ => some p.1 := by
  unfold scrape_sources processResults
  rw [processResultsFrom_spec]
  exact ⟨rfl, rfl⟩

/-!
### C4: per-source retry budget of exactly one
-/

/-- C4: `scrape_source` runs the call/parse cycle at most twice: a first
attempt that yields nonempty records ends the task after one attempt; a
first attempt that raises a transport-class (caught) error or yields zero
records is followed by exactly one retry; a second empty or failed outcome
is terminal with result `[]`; and a transport-class error is never raised to
the caller (only an uncaught exception propagates, carrying its message). -/
theorem scrape_source_retry_budget (att : Nat → Except CallErr (Option Str)) :
    (scrape_source att).2 ≤ 2
    ∧ (∀ rs, goodOutcome (att 0) = some rs → scrape_source att = (.ok rs, 1))
    ∧ (∀ m, att 0 = .error (.uncaught m) → scrape_source att = (.error m, 1))
    ∧ (goodOutcome (att 0) = none → uncaughtMsg (att 0) = none →
        (scrape_source att).2 = 2)
    ∧ (goodOutcome (att 0) = none → uncaughtMsg (att 0) = none →
        goodOutcome (att 1) = none → uncaughtMsg (att 1) = none →
        scrape_source att = (.ok [], 2))
    ∧ (∀ m, (scrape_source att).1 = .error m →
        att 0 = .error (.uncaught m) ∨ att 1 = .error (.uncaught m)) := by
  rcases h0 : att 0 with e0 | out0
  · rcases e0 with m0 | m0
    · -- attempt 0 caught: retry happens
      rcases h1 : att 1 with e1 | out1
      · rcases e1 with m1 | m1
        · refine ⟨by simp [scrape_source, h0, h1], ?_, ?_, ?_, ?_, ?_⟩ <;>
            simp [scrape_source, goodOutcome, uncaughtMsg, h0, h1]
        · refine ⟨by simp [scrape_source, h0, h1], ?_, ?_, ?_, ?_, ?_⟩ <;>
            simp [scrape_source, goodOutcome, uncaughtMsg, h0, h1]
      · rcases hr1 : attemptRecords out1 with _ | rs1
        · refine ⟨by simp [scrape_source, h0, h1, hr1], ?_, ?_, ?_, ?_, ?_⟩ <;>
            simp [scrape_source, goodOutcome, uncaughtMsg, h0, h1, hr1]
        · by_cases hemp : rs1.isEmpty <;>
            refine ⟨by simp [scrape_source, h0, h1, hr1, hemp], ?_, ?_, ?_, ?_, ?_⟩ <;>
              simp [scrape_source, goodOutcome, uncaughtMsg, h0, h1, hr1, hemp]
    · -- attempt 0 uncaught: propagates immediately
      refine ⟨by simp [scrape_source, h0], ?_, ?_, ?_, ?_, ?_⟩ <;>
        simp [scrape_source, goodOutcome, uncaughtMsg, h0]
  · rcases hr0 : attemptRecords out0 with _ | rs0
    · -- attempt 0 parsed to None: retry happens
      rcases h1 : att 1 with e1 | out1
      · rcases e1 with m1 | m1
        · refine ⟨by simp [scrape_source, h0, h1, hr0], ?_, ?_, ?_, ?_, ?_⟩ <;>
            simp [scrape_source, goodOutcome, uncaughtMsg, h0, h1, hr0]
        · refine ⟨by simp [scrape_source, h0, h1, hr0], ?_, ?_, ?_, ?_, ?_⟩ <;>
            simp [scrape_source, goodOutcome, uncaughtMsg, h0, h1, hr0]
      · rcases hr1 : attemptRecords out1 with _ | rs1
        · refine ⟨by simp [scrape_source, h0, h1, hr0, hr1], ?_, ?_, ?_, ?_, ?_⟩ <;>
            simp [scrape_source, goodOutcome, uncaughtMsg, h0, h1, hr0, hr1]
        · by_cases hemp : rs1.isEmpty <;>
            refine ⟨by simp [scrape_source, h0, h1, hr0, hr1, hemp], ?_, ?_, ?_, ?_, ?_⟩ <;>
              simp [scrape_source, goodOutcome, uncaughtMsg, h0, h1, hr0, hr1, hemp]
    · by_cases hemp0 : rs0.isEmpty
      · -- attempt 0 parsed to an empty list: retry happens
        rcases h1 : att 1 with e1 | out1
        · rcases e1 with m1 | m1
          · refine ⟨by simp [scrape_source, h0, h1, hr0, hemp0], ?_, ?_, ?_, ?_, ?_⟩ <;>
              simp [scrape_source, goodOutcome, uncaughtMsg, h0, h1, hr0, hemp0]
          · refine ⟨by simp [scrape_source, h0, h1, hr0, hemp0], ?_, ?_, ?_, ?_, ?_⟩ <;>
              simp [scrape_source, goodOutcome, uncaughtMsg, h0, h1, hr0, hemp0]
        · rcases hr1 : attemptRecords out1 with _ | rs1
          · refine ⟨by simp [scrape_source, h0, h1, hr0, hemp0, hr1], ?_, ?_, ?_, ?_, ?_⟩ <;>
              simp [scrape_source, goodOutcome, uncaughtMsg, h0, h1, hr0, hemp0, hr1]
          · by_cases hemp1 : rs1.isEmpty <;>
              refine ⟨by simp [scrape_source, h0, h1, hr0, hemp0, hr1, hemp1],
                ?_, ?_, ?_, ?_, ?_⟩ <;>
                simp [scrape_source, goodOutcome, uncaughtMsg, h0, h1, hr0, hemp0, hr1, hemp1]
      · -- attempt 0 succeeded with nonempty records: single attempt
        refine ⟨by simp [scrape_source, h0, hr0, hemp0], ?_, ?_, ?_, ?_, ?_⟩ <;>
          simp [scrape_source, goodOutcome, uncaughtMsg, h0, hr0, hemp0]

/-- Witness for C4: a task whose both attempts raise a transport-class error
returns the empty list after exactly two attempts. -/
theorem scrape_source_retry_budget_witness :
    scrape_source (fun _ => .error (.caught (chars "timeout"))) = (.ok [], 2) := by
  exact (scrape_source_retry_budget
    (fun _ => .error (.caught (chars "timeout")))).2.2.2.2.1 rfl rfl rfl rfl

/-!
### C5: parser totality and bracket extraction
-/

/-- C5: `_parse_records` never raises (it is a total function to an optional
record list), and it implements exactly the spec's bracket-extraction
algorithm (`parseRecordsSpec`); in particular the narration-wrapped example
parses to a one-element list and plain prose parses to `None`, not an
exception. -/
theorem parse_records_total_spec :
    (∀ t, parse_records t = parseRecordsSpec t)
    ∧ parse_records (chars "Sure, here:\n```json\n[\x7b\"Link\":\"x\"\x7d]\n```\nDone.") =
        some [Json.obj [(chars "Link", Json.str ['x'])]]
    ∧ parse_records (chars "no json here") = none := by
  refine ⟨?_, by rfl, by rfl⟩
  intro t
  by_cases h : t = []
  · subst h; rfl
  · simp only [parse_records, parseRecordsSpec, if_neg h]

/-!
### C6, C8, C10: deduplication in `create_records`
-/

lemma dedupLoop_spec (idx : List Str) :
    ∀ (recs kept : List JobRec) (sk : Nat),
      dedupLoop idx recs = .ok (kept, sk) →
      kept = recs.filter (fun r => !isDupRec idx r) ∧
        sk = recs.countP (isDupRec idx) := by
  intro recs
  induction recs with
  | nil =>
    intro kept sk h
    simp [dedupLoop] at h
    simp [h.1, h.2]
  | cons r rest ih =>
    intro kept sk h
    rcases hrec : dedupLoop idx rest with e | p
    · by_cases ht : linkTruthy r.link
      · rcases hn : normalize_url (r.link.getD []) with _ | nl
        · simp [dedupLoop, ht, hn] at h
        · by_cases hmem : nl ∈ idx <;>
            simp [dedupLoop, ht, hn, hmem, hrec, Except.map] at h
      · simp [dedupLoop, ht, hrec, Except.map] at h
    · obtain ⟨ih1, ih2⟩ := ih p.1 p.2 (by rw [hrec])
      by_cases ht : linkTruthy r.link
      · rcases hn : normalize_url (r.link.getD []) with _ | nl
        · simp [dedupLoop, ht, hn] at h
        · by_cases hmem : nl ∈ idx
          · have hdup : isDupRec idx r = true := by
              simp [isDupRec, ht, hn, hmem]
            simp [dedupLoop, ht, hn, hmem, hrec, Except.map] at h
            obtain ⟨hk, hs⟩ := h
            subst hk
            subst hs
            simp [ih1, ih2, List.filter_cons, List.countP_cons, hdup]
          · have hdup : isDupRec idx r = false := by
              simp [isDupRec, ht, hn, hmem]
            simp [dedupLoop, ht, hn, hmem, hrec, Except.map] at h
            obtain ⟨hk, hs⟩ := h
            subst hk
            subst hs
            simp [ih1, ih2, List.filter_cons, List.countP_cons, hdup]
      · have hdup : isDupRec idx r = false := by simp [isDupRec, ht]
        simp [dedupLoop, ht, hrec, Except.map] at h
        obtain ⟨hk, hs⟩ := h
        subst hk
        subst hs
        simp [ih1, ih2, List.filter_cons, List.countP_cons, hdup]

/-- C6: `create_records` skips (and does not write) precisely the incoming
records whose normalized link is present in the set of normalized links of
already-stored records, and keeps every other record; on the spec's example
(existing index `https://a.com/job/1`, incoming `https://a.com/job/1?utm=x`
and `https://b.com/job/2`) it returns created 1, skipped 1, and the created
record's link is `https://b.com/job/2`. -/
theorem create_records_dedup :
    (∀ (idx : List Str) (recs kept : List JobRec) (sk : Nat),
        dedupLoop idx recs = .ok (kept, sk) →
        kept = recs.filter (fun r => !isDupRec idx r) ∧
          sk = recs.countP (isDupRec idx))
    ∧ create_records Except.ok [some (chars "https://a.com/job/1")]
        [⟨some (chars "https://a.com/job/1?utm=x"), 1⟩,
         ⟨some (chars "https://b.com/job/2"), 2⟩] =
      .ok ⟨1, 1, [⟨some (chars "https://b.com/job/2"), 2⟩]⟩ := by
  exact ⟨dedupLoop_spec, by rfl⟩

/-- Witness for C6 on a concrete one-record batch with a non-matching index. -/
theorem create_records_dedup_witness :
    ([⟨some (chars "https://c.com/p"), 5⟩] : List JobRec) =
      ([⟨some (chars "https://c.com/p"), 5⟩] : List JobRec).filter
        (fun r => !isDupRec [chars "https://a.com/job/1"] r) ∧
    0 = ([⟨some (chars "https://c.com/p"), 5⟩] : List JobRec).countP
        (isDupRec [chars "https://a.com/job/1"]) := by
  exact create_records_dedup.1 [chars "https://a.com/job/1"]
    [⟨some (chars "https://c.com/p"), 5⟩] [⟨some (chars "https://c.com/p"), 5⟩] 0
    (by rfl)

/-- C8 counterexample: two same-normalized-link records in one batch that
match no existing record are BOTH created (created 2, skipped 0); no pending
set catches within-batch duplicates, contradicting the claimed
`created 1, skipped 1` outcome. -/
theorem create_records_within_batch_counterexample :
    create_records Except.ok []
        [⟨some (chars "https://b.com/x?a=1"), 1⟩,
         ⟨some (chars "https://b.com/x?a=2"), 2⟩] =
      .ok ⟨2, 0, [⟨some (chars "https://b.com/x?a=1"), 1⟩,
                  ⟨some (chars "https://b.com/x?a=2"), 2⟩]⟩
    ∧ normalize_url (chars "https://b.com/x?a=1") =
        normalize_url (chars "https://b.com/x?a=2")
    ∧ ∀ res, create_records Except.ok []
        [⟨some (chars "https://b.com/x?a=1"), 1⟩,
         ⟨some (chars "https://b.com/x?a=2"), 2⟩] = .ok res →
        ¬(res.created = 1 ∧ res.skipped = 1) := by
  refine ⟨by rfl, by rfl, ?_⟩
  intro res h
  rw [show create_records Except.ok []
        [⟨some (chars "https://b.com/x?a=1"), 1⟩,
         ⟨some (chars "https://b.com/x?a=2"), 2⟩] =
      .ok (⟨2, 0, [⟨some (chars "https://b.com/x?a=1"), 1⟩,
                   ⟨some (chars "https://b.com/x?a=2"), 2⟩]⟩ : CreateResult)
    from by rfl] at h
  cases h
  simp

/-- C8 as amended: `create_records` maintains no pending set, so
deduplication is only against the existing index: two records of one batch
whose links normalize to the same value, absent from the index, are both
kept (created) and neither is skipped. -/
theorem create_records_no_pending_set (idx : List Str) (r1 r2 : JobRec) (nl : Str)
    (h1t : linkTruthy r1.link = true) (h2t : linkTruthy r2.link = true)
    (h1n : normalize_url (r1.link.getD []) = some nl)
    (h2n : normalize_url (r2.link.getD []) = some nl)
    (hmem : nl ∉ idx) :
    dedupLoop idx [r1, r2] = .ok ([r1, r2], 0) := by
  simp [dedupLoop, h1t, h2t, h1n, h2n, hmem, Except.map]

/-- Witness for the amended C8 on concrete same-normalized-link records. -/
theorem create_records_no_pending_set_witness :
    dedupLoop [] [⟨some (chars "https://b.com/x?a=1"), 1⟩,
                  ⟨some (chars "https://b.com/x?a=2"), 2⟩] =
      .ok ([⟨some (chars "https://b.com/x?a=1"), 1⟩,
            ⟨some (chars "https://b.com/x?a=2"), 2⟩], 0) := by
  exact create_records_no_pending_set [] _ _ (chars "https://b.com/x")
    (by rfl) (by rfl) (by rfl) (by rfl) (by simp)

/-- C10: a record whose link field is missing or empty is never counted as a
duplicate and is always kept in the write batch, regardless of the contents
of the existing-links index. -/
theorem create_records_keeps_linkless (idx : List Str) (recs kept : List JobRec)
    (sk : Nat) (h : dedupLoop idx recs = .ok (kept, sk)) :
    ∀ r ∈ recs, linkTruthy r.link = false →
      isDupRec idx r = false ∧ r ∈ kept := by
  obtain ⟨hk, _⟩ := dedupLoop_spec idx recs kept sk h
  intro r hr ht
  have hdup : isDupRec idx r = false := by simp [isDupRec, ht]
  exact ⟨hdup, hk ▸ List.mem_filter.mpr ⟨hr, by simp [hdup]⟩⟩

/-- Witness for C10 with a linkless record against a nonempty index. -/
theorem create_records_keeps_linkless_witness :
    isDupRec [chars "https://a.com/x"] ⟨none, 3⟩ = false ∧
    (⟨none, 3⟩ : JobRec) ∈ [(⟨none, 3⟩ : JobRec)] := by
  exact create_records_keeps_linkless [chars "https://a.com/x"]
    [⟨none, 3⟩] [⟨none, 3⟩] 0 (by rfl) ⟨none, 3⟩ (by simp) (by rfl)

/-!
### C9: chunked batch writes
-/

lemma chunksOf10_spec : ∀ (n : Nat) (l : List JobRec), l.length ≤ n →
    (chunksOf10 l).flatten = l ∧ ∀ c ∈ chunksOf10 l, c ≠ [] ∧ c.length ≤ 10 := by
  intro n
  induction n with
  | zero =>
    intro l hl
    have : l = [] := by
      cases l with
      | nil => rfl
      | cons a as => simp at hl
    subst this
    rw [chunksOf10]
    simp
  | succ n ihn =>
    intro l hl
    by_cases hnil : l = []
    · subst hnil
      rw [chunksOf10]
      simp
    · rw [chunksOf10]
      simp only [if_neg hnil]
      have hlen : (l.drop 10).length ≤ n := by
        have h1 : l.length ≠ 0 := by
          intro h0
          exact hnil (List.length_eq_zero.mp h0)
        simp only [List.length_drop]
        omega
      obtain ⟨ih1, ih2⟩ := ihn (l.drop 10) hlen
      constructor
      · simp [ih1, List.take_append_drop]
      · intro c hc
        rcases List.mem_cons.mp hc with hc2 | hc2
        · subst hc2
          refine ⟨?_, ?_⟩
          · simp [hnil]
          · simp
        · exact ih2 c hc2

lemma batch_update_records_spec (store : List JobRec → Except Str (List JobRec)) :
    ∀ (n : Nat) (updates : List JobRec), updates.length ≤ n →
      batch_update_records store updates =
        ((chunksOf10 updates).map fun c =>
          match store c with
          | .ok rs => rs
          | .error _ => []).flatten := by
  intro n
  induction n with
  | zero =>
    intro updates hl
    have : updates = [] := by
      cases updates with
      | nil => rfl
      | cons a as => simp at hl
    subst this
    rw [batch_update_records, chunksOf10]
    simp
  | succ n ihn =>
    intro updates hl
    by_cases hnil : updates = []
    · subst hnil
      rw [batch_update_records, chunksOf10]
      simp
    · rw [batch_update_records, chunksOf10]
      simp only [if_neg hnil]
      have hlen : (updates.drop 10).length ≤ n := by
        have h1 : updates.length ≠ 0 := by
          intro h0
          exact hnil (List.length_eq_zero.mp h0)
        simp only [List.length_drop]
        omega
      rw [ihn (updates.drop 10) hlen]
      simp

/-- C9 as amended: `batch_update_records` sends updates in chunks of at most
10 records and a failed chunk is skipped while processing continues with the
next chunk (yielding correspondingly fewer results); `create_records`, by
contrast, performs its write as a single `batch_create` call whose failure
propagates and aborts the sync. -/
theorem batch_update_chunked (store : List JobRec → Except Str (List JobRec))
    (updates : List JobRec) :
    batch_update_records store updates =
      ((chunksOf10 updates).map fun c =>
        match store c with
        | .ok rs => rs
        | .error _ => []).flatten
    ∧ (chunksOf10 updates).flatten = updates
    ∧ (∀ c ∈ chunksOf10 updates, c ≠ [] ∧ c.length ≤ 10)
    ∧ (∀ (st : List JobRec → Except Str (List JobRec)) (existing : List (Option Str))
        (recs kept : List JobRec) (sk : Nat) (idx : List Str) (e : Str),
        recs ≠ [] → buildIndex existing = .ok idx →
        dedupLoop idx recs = .ok (kept, sk) → kept ≠ [] → st kept = .error e →
        create_records st existing recs = .error e) := by
  refine ⟨batch_update_records_spec store updates.length updates le_rfl,
    (chunksOf10_spec updates.length updates le_rfl).1,
    (chunksOf10_spec updates.length updates le_rfl).2, ?_⟩
  intro st existing recs kept sk idx e hne hidx hded hkne hst
  simp [create_records, hne, hidx, hded, hkne, hst, bind, Except.bind]

/-- C9 counterexample for the original claim: with a store that fails the
write, `create_records` aborts with the error instead of reporting a reduced
created count. -/
theorem create_records_chunk_failure_counterexample :
    create_records (fun _ => .error (chars "boom")) []
        [⟨some (chars "https://b.com/x"), 1⟩] = .error (chars "boom") := by
  rfl

/-- Witness for the amended C9: a failing store aborts a concrete sync. -/
theorem batch_update_chunked_witness :
    create_records (fun _ => .error (chars "E")) [] [⟨none, 7⟩] =
      .error (chars "E") := by
  exact (batch_update_chunked Except.ok []).2.2.2 (fun _ => .error (chars "E"))
    [] [⟨none, 7⟩] [⟨none, 7⟩] 0 [] (chars "E") (by simp) (by rfl)
    (by rfl) (by simp) rfl

/-!
### C2: rate-limiter sliding-window bound
-/

lemma dropWhile_sorted_eq_filter (c : ℚ) :
    ∀ (l : List ℚ), l.Pairwise (· ≤ ·) →
      l.dropWhile (fun t => decide (t ≤ c)) = l.filter (fun t => decide (c < t)) := by
  intro l hl
  induction l with
  | nil => rfl
  | cons x xs ih =>
    rw [List.pairwise_cons] at hl
    by_cases hx : x ≤ c
    · rw [List.dropWhile_cons, if_pos (by simpa using hx), ih hl.2,
        List.filter_cons, if_neg (by simpa using not_lt.mpr hx)]
    · have hcx : c < x := not_le.mp hx
      rw [List.dropWhile_cons, if_neg (by simpa using hx), List.filter_cons,
        if_pos (by simpa using hcx)]
      have hself : List.filter (fun t => decide (c < t)) xs = xs :=
        List.filter_eq_self.mpr fun a ha => by
          simpa using lt_of_lt_of_le hcx (hl.1 a ha)
      rw [hself]

lemma LimInv.step {N : Nat} {W : ℚ} {st succ : List ℚ} {last now : ℚ}
    (h : LimInv N W st succ last) (hle : last ≤ now) :
    LimInv N W (limStep N W (st, succ) now).1 (limStep N W (st, succ) now).2 now := by
  have hfilter : pruneOld W now st = st.filter (fun t => decide (now - W < t)) :=
    dropWhile_sorted_eq_filter (now - W) st h.sorted
  have hsub : (pruneOld W now st).Sublist st := by
    rw [hfilter]
    exact List.filter_sublist st
  have hsorted1 : (pruneOld W now st).Pairwise (· ≤ ·) :=
    List.Pairwise.sublist hsub h.sorted
  have hst1_le : ∀ t ∈ pruneOld W now st, t ≤ now :=
    fun t ht => le_trans (h.st_le t (hsub.subset ht)) hle
  have hsucc_le : ∀ s ∈ succ, s ≤ now := fun s hs => le_trans (h.succ_le s hs) hle
  have hcount1 : ∀ c : ℚ, now - W ≤ c →
      succ.countP (fun s => decide (c < s)) ≤
        (pruneOld W now st).countP (fun s => decide (c < s)) := by
    intro c hc
    have h0 := h.count_le c (le_trans (by linarith) hc)
    have heq : (pruneOld W now st).countP (fun s => decide (c < s)) =
        st.countP (fun s => decide (c < s)) := by
      rw [hfilter, List.countP_filter]
      refine List.countP_congr fun x _ => ?_
      simp only [Bool.and_eq_true, decide_eq_true_eq]
      exact ⟨fun hx => hx.1, fun hx => ⟨hx, lt_of_le_of_lt hc hx⟩⟩
    rw [heq]
    exact h0
  by_cases hlt : (pruneOld W now st).length < N
  · have hstep : limStep N W (st, succ) now =
        (pruneOld W now st ++ [now], succ ++ [now]) := by
      simp [limStep, acquireStep, hlt]
    rw [hstep]
    refine ⟨?_, ?_, ?_, ?_, ?_, ?_⟩
    · simp only [List.length_append, List.length_singleton]
      omega
    · rw [List.pairwise_append]
      exact ⟨hsorted1, by simp, fun a ha b hb => by
        simp only [List.mem_singleton] at hb
        exact hb ▸ hst1_le a ha⟩
    · intro t ht
      rcases List.mem_append.mp ht with ht | ht
      · exact hst1_le t ht
      · simp only [List.mem_singleton] at ht
        exact le_of_eq ht
    · intro s hs
      rcases List.mem_append.mp hs with hs | hs
      · exact hsucc_le s hs
      · simp only [List.mem_singleton] at hs
        exact le_of_eq hs
    · intro c hc
      rw [List.countP_append, List.countP_append]
      have hc1 := hcount1 c hc
      simp only [List.countP_cons, List.countP_nil]
      omega
    · intro a
      rw [List.countP_append]
      by_cases hwin : a < now ∧ now ≤ a + W
      · have hmono2 : succ.countP (fun s => decide (a < s ∧ s ≤ a + W)) ≤
            succ.countP (fun s => decide (now - W < s)) := by
          refine List.countP_mono_left fun s hs hp => ?_
          have hp2 : a < s ∧ s ≤ a + W := by simpa using hp
          have haw : now - W ≤ a := by linarith [hwin.2]
          simpa using lt_of_le_of_lt haw hp2.1
        have hb1 : succ.countP (fun s => decide (now - W < s)) ≤
            (pruneOld W now st).length :=
          le_trans (hcount1 (now - W) le_rfl) (List.countP_le_length _)
        have hb2 : List.countP (fun s => decide (a < s ∧ s ≤ a + W)) [now] ≤ 1 := by
          simp only [List.countP_cons, List.countP_nil]
          split <;> omega
        omega
      · have hnow : List.countP (fun s => decide (a < s ∧ s ≤ a + W)) [now] = 0 := by
          simp [List.countP_cons, hwin]
        rw [hnow]
        simpa using h.window a
  · have hstep : limStep N W (st, succ) now = (pruneOld W now st, succ) := by
      simp [limStep, acquireStep, hlt]
    rw [hstep]
    exact ⟨le_trans hsub.length_le h.len_le, hsorted1, hst1_le, hsucc_le,
      hcount1, h.window⟩

lemma runLimiter_inv (N : Nat) (W : ℚ) :
    ∀ (ts : List ℚ) (st succ : List ℚ) (last : ℚ),
      LimInv N W st succ last → List.Chain' (· ≤ ·) (last :: ts) →
      ∃ last2, LimInv N W (ts.foldl (limStep N W) (st, succ)).1
        (ts.foldl (limStep N W) (st, succ)).2 last2 := by
  intro ts
  induction ts with
  | nil => exact fun st succ last h _ => ⟨last, h⟩
  | cons now rest ih =>
    intro st succ last h hchain
    rw [List.chain'_cons] at hchain
    have hstep := h.step hchain.1
    have hfold : (now :: rest).foldl (limStep N W) (st, succ) =
        rest.foldl (limStep N W) (limStep N W (st, succ) now) := rfl
    rw [hfold]
    exact ih (limStep N W (st, succ) now).1 (limStep N W (st, succ) now).2 now
      hstep hchain.2

/-- C2: for every nondecreasing sequence of critical-section entry times of
`acquire` (the event-loop clock is monotone) and every state change (every
prefix of that sequence, ending at time `now`), the timestamp deque holds at
most `maxRequests = N` timestamps newer than `now - W`, and no sliding
window of length `W` observes more than `N` successful acquisitions. -/
theorem rate_limiter_sliding_window (N : Nat) (W : ℚ) (times : List ℚ)
    (hmono : times.Chain' (· ≤ ·)) (pre : List ℚ) (now : ℚ)
    (hpre : (pre ++ [now]) <+: times) :
    (((runLimiter N W (pre ++ [now])).1).filter
        (fun t => decide (now - W < t))).length ≤ N
    ∧ ∀ a : ℚ, ((runLimiter N W (pre ++ [now])).2).countP
        (fun s => decide (a < s ∧ s ≤ a + W)) ≤ N := by
  obtain ⟨suf, hsuf⟩ := hpre
  have hchain : (pre ++ [now]).Chain' (· ≤ ·) := by
    refine List.Chain'.sublist hmono ?_
    rw [← hsuf]
    exact List.sublist_append_left _ _
  rcases hpn : pre ++ [now] with _ | ⟨h0, rest⟩
  · exact absurd hpn (by simp)
  · rw [hpn] at hchain
    have hchain0 : List.Chain' (· ≤ ·) (h0 :: h0 :: rest) := by
      rw [List.chain'_cons]
      exact ⟨le_refl h0, hchain⟩
    have hinv0 : LimInv N W [] [] h0 :=
      ⟨by simp, by simp, by simp, by simp, fun c _ => by simp, fun a => by simp⟩
    obtain ⟨last2, hinv⟩ := runLimiter_inv N W (h0 :: rest) [] [] h0 hinv0 hchain0
    exact ⟨le_trans (List.length_filter_le _ _) hinv.len_le, hinv.window⟩

/-- Witness for C2 on the concrete run `N = 1`, `W = 1`, times `0, 1`. -/
theorem rate_limiter_sliding_window_witness :
    (((runLimiter 1 1 [0, 1]).1).filter
        (fun t => decide ((1 : ℚ) - 1 < t))).length ≤ 1
    ∧ ((runLimiter 1 1 [0, 1]).2).countP
        (fun s => decide ((0 : ℚ) < s ∧ s ≤ 0 + 1)) ≤ 1 := by
  have h := rate_limiter_sliding_window 1 1 [0, 1]
    (by simp [List.chain'_cons]) [0] 1 ⟨[], by simp⟩
  exact ⟨h.1, h.2 0⟩

/-!
### C7: `normalize_url` idempotence

Helper lemmas about characters, `findChar`/`rfindChar`, and the splitting
functions, building up to: re-parsing a URL rebuilt from the scheme, netloc
and path of a parse yields those same components back. -/

lemma char_toNat_ofNat (n : Nat) (h2 : n ≤ 122) : (Char.ofNat n).toNat = n := by
  have hv : n.isValidChar := Or.inl (by omega)
  simp [Char.ofNat, hv, Char.ofNatAux, Char.toNat, UInt32.toNat, BitVec.toNat_ofNatLt]

lemma isUpper_iff (c : Char) : c.isUpper = true ↔ 65 ≤ c.toNat ∧ c.toNat ≤ 90 := by
  simp only [Char.isUpper, Bool.and_eq_true, decide_eq_true_eq]
  exact Iff.rfl

lemma isLower_iff (c : Char) : c.isLower = true ↔ 97 ≤ c.toNat ∧ c.toNat ≤ 122 := by
  simp only [Char.isLower, Bool.and_eq_true, decide_eq_true_eq]
  exact Iff.rfl

lemma isDigit_iff (c : Char) : c.isDigit = true ↔ 48 ≤ c.toNat ∧ c.toNat ≤ 57 := by
  simp only [Char.isDigit, Bool.and_eq_true, decide_eq_true_eq]
  exact Iff.rfl

lemma toLower_eq (c : Char) :
    Char.toLower c =
      if 65 ≤ c.toNat ∧ c.toNat ≤ 90 then Char.ofNat (c.toNat + 32) else c := by
  simp [Char.toLower]

lemma toLower_of_upper (c : Char) (h : 65 ≤ c.toNat ∧ c.toNat ≤ 90) :
    (Char.toLower c).toNat = c.toNat + 32 := by
  rw [toLower_eq, if_pos h, char_toNat_ofNat _ (by omega)]

lemma toLower_isAlpha (c : Char) (h : c.isAlpha = true) :
    (Char.toLower c).isAlpha = true ∧ Char.toLower (Char.toLower c) = Char.toLower c := by
  simp only [Char.isAlpha, Bool.or_eq_true, isUpper_iff, isLower_iff] at h ⊢
  rcases h with h | h
  · have h1 := toLower_of_upper c h
    constructor
    · right
      omega
    · rw [toLower_eq (Char.toLower c), if_neg (by omega)]
  · have h1 : Char.toLower c = c := by rw [toLower_eq, if_neg (by omega)]
    rw [h1]
    exact ⟨Or.inr h, h1⟩

lemma toLower_schemeChar (c : Char) (h : isSchemeChar c = true) :
    isSchemeChar (Char.toLower c) = true ∧
      Char.toLower (Char.toLower c) = Char.toLower c := by
  simp only [isSchemeChar, Bool.or_eq_true, decide_eq_true_eq] at h ⊢
  rcases h with ((((ha | hd) | hp) | hm) | hdot)
  · have hres := toLower_isAlpha c ha
    exact ⟨Or.inl (Or.inl (Or.inl (Or.inl hres.1))), hres.2⟩
  · have h1 : Char.toLower c = c := by
      rw [toLower_eq, if_neg (by rw [isDigit_iff] at hd; omega)]
    rw [h1]
    exact ⟨Or.inl (Or.inl (Or.inl (Or.inr hd))), h1⟩
  · subst hp
    exact ⟨Or.inl (Or.inl (Or.inr rfl)), rfl⟩
  · subst hm
    exact ⟨Or.inl (Or.inr rfl), rfl⟩
  · subst hdot
    exact ⟨Or.inr rfl, rfl⟩

lemma isSchemeChar_of_alpha {c : Char} (h : c.isAlpha = true) :
    isSchemeChar c = true := by
  simp [isSchemeChar, h]

lemma schemeChar_ranges {c : Char} (h : isSchemeChar c = true) :
    (65 ≤ c.toNat ∧ c.toNat ≤ 90) ∨ (97 ≤ c.toNat ∧ c.toNat ≤ 122) ∨
    (48 ≤ c.toNat ∧ c.toNat ≤ 57) ∨ c.toNat = 43 ∨ c.toNat = 45 ∨ c.toNat = 46 := by
  simp only [isSchemeChar, Bool.or_eq_true, decide_eq_true_eq, Char.isAlpha,
    isUpper_iff, isLower_iff, isDigit_iff] at h
  rcases h with ((((h | h) | h) | h) | h)
  · rcases h with h | h
    · exact Or.inl h
    · exact Or.inr (Or.inl h)
  · exact Or.inr (Or.inr (Or.inl h))
  · subst h
    exact Or.inr (Or.inr (Or.inr (Or.inl (by decide))))
  · subst h
    exact Or.inr (Or.inr (Or.inr (Or.inr (Or.inl (by decide)))))
  · subst h
    exact Or.inr (Or.inr (Or.inr (Or.inr (Or.inr (by decide)))))

lemma schemeChar_ne {c : Char} (h : isSchemeChar c = true) :
    c ≠ ':' ∧ c ≠ '\t' ∧ c ≠ '\r' ∧ c ≠ '\n' := by
  have hr := schemeChar_ranges h
  refine ⟨?_, ?_, ?_, ?_⟩
  · intro he
    subst he
    rw [show (':').toNat = 58 from by decide] at hr
    rcases hr with h | h | h | h | h | h <;> omega
  · intro he
    subst he
    rw [show ('\t').toNat = 9 from by decide] at hr
    rcases hr with h | h | h | h | h | h <;> omega
  · intro he
    subst he
    rw [show ('\r').toNat = 13 from by decide] at hr
    rcases hr with h | h | h | h | h | h <;> omega
  · intro he
    subst he
    rw [show ('\n').toNat = 10 from by decide] at hr
    rcases hr with h | h | h | h | h | h <;> omega

lemma findChar_eq_none {c : Char} : ∀ {l : Str}, findChar c l = none ↔ c ∉ l := by
  intro l
  induction l with
  | nil => simp [findChar]
  | cons x xs ih =>
    by_cases hx : x = c
    · subst hx
      simp [findChar]
    · simp [findChar, hx, Option.map_eq_none', ih, Ne.symm hx]

lemma findChar_append_of_not_mem {c : Char} :
    ∀ {a : Str} (l : Str), c ∉ a →
      findChar c (a ++ l) = (findChar c l).map (· + a.length) := by
  intro a
  induction a with
  | nil => intro l _; simp
  | cons x xs ih =>
    intro l h
    have hx : x ≠ c := fun he => h (by simp [he])
    have hxs : c ∉ xs := fun hm => h (by simp [hm])
    rw [List.cons_append, findChar, if_neg hx, ih l hxs]
    cases findChar c l with
    | none => rfl
    | some i =>
      simp only [Option.map_some', List.length_cons]
      rw [Nat.add_assoc]

lemma findChar_cons_self (c : Char) (l : Str) : findChar c (c :: l) = some 0 := by
  simp [findChar]

lemma findChar_append_some {c : Char} :
    ∀ {w : Str} {j : Nat} (t : Str), findChar c w = some j →
      findChar c (w ++ t) = some j := by
  intro w
  induction w with
  | nil => intro j t h; simp [findChar] at h
  | cons x xs ih =>
    intro j t h
    by_cases hx : x = c
    · subst hx
      rw [findChar_cons_self] at h
      rw [List.cons_append, findChar_cons_self]
      exact h
    · rw [findChar, if_neg hx] at h
      rcases Option.map_eq_some'.mp h with ⟨j0, hj0, hj⟩
      rw [List.cons_append, findChar, if_neg hx, ih t hj0, ← hj]
      rfl

lemma findChar_lt_length {c : Char} :
    ∀ {l : Str} {i : Nat}, findChar c l = some i → i < l.length := by
  intro l
  induction l with
  | nil => intro i h; simp [findChar] at h
  | cons x xs ih =>
    intro i h
    by_cases hx : x = c
    · subst hx
      rw [findChar_cons_self] at h
      cases h
      simp
    · rw [findChar, if_neg hx] at h
      rcases Option.map_eq_some'.mp h with ⟨j0, hj0, hj⟩
      have := ih hj0
      simp only [List.length_cons]
      omega

lemma findChar_not_mem_take {c : Char} :
    ∀ {l : Str} {i : Nat}, findChar c l = some i → c ∉ l.take i := by
  intro l
  induction l with
  | nil => intro i h; simp [findChar] at h
  | cons x xs ih =>
    intro i h
    by_cases hx : x = c
    · subst hx
      rw [findChar_cons_self] at h
      cases h
      simp
    · rw [findChar, if_neg hx] at h
      rcases Option.map_eq_some'.mp h with ⟨j0, hj0, hj⟩
      subst hj
      rw [List.take_succ_cons]
      intro hmem
      rcases List.mem_cons.mp hmem with he | he
      · exact hx he.symm
      · exact ih hj0 he

lemma findChar_some_decomp {c : Char} :
    ∀ {l : Str} {i : Nat}, findChar c l = some i →
      l = l.take i ++ c :: l.drop (i + 1) := by
  intro l
  induction l with
  | nil => intro i h; simp [findChar] at h
  | cons x xs ih =>
    intro i h
    by_cases hx : x = c
    · subst hx
      rw [findChar_cons_self] at h
      cases h
      simp
    · rw [findChar, if_neg hx] at h
      rcases Option.map_eq_some'.mp h with ⟨j0, hj0, hj⟩
      subst hj
      have := ih hj0
      calc x :: xs = x :: (xs.take j0 ++ c :: xs.drop (j0 + 1)) := by rw [← this]
        _ = (x :: xs).take (j0 + 1) ++ c :: (x :: xs).drop (j0 + 1 + 1) := by
              simp [List.take_succ_cons, List.drop_succ_cons]

lemma findChar_some_mem {c : Char} {l : Str} {i : Nat} (h : findChar c l = some i) :
    c ∈ l := by
  rw [findChar_some_decomp h]
  simp

lemma rfindChar_eq_none {c : Char} {l : Str} : rfindChar c l = none ↔ c ∉ l := by
  rw [rfindChar]
  rcases hf : findChar c l.reverse with _ | jr
  · simp only [true_iff]
    have := findChar_eq_none.mp hf
    simpa [List.mem_reverse] using this
  · simp only [false_iff, not_not]
    constructor
    · intro h
      cases h
    · intro h
      exact absurd (List.mem_reverse.mp (findChar_some_mem hf)) h

lemma rfindChar_append_of_not_mem {c : Char} (a b : Str) (h : c ∉ b) :
    rfindChar c (a ++ c :: b) = some a.length := by
  have hb : c ∉ b.reverse := by simpa [List.mem_reverse] using h
  have hf : findChar c ((a ++ c :: b).reverse) = some b.reverse.length := by
    have hrev : (a ++ c :: b).reverse = b.reverse ++ c :: a.reverse := by simp
    rw [hrev, findChar_append_of_not_mem _ hb, findChar_cons_self]
    simp
  simp only [rfindChar, hf]
  congr 1
  simp only [List.length_append, List.length_cons, List.length_reverse]
  omega

lemma rfindChar_some_decomp {c : Char} {l : Str} {j : Nat}
    (h : rfindChar c l = some j) :
    ∃ A B, l = A ++ c :: B ∧ A.length = j ∧ c ∉ B := by
  rw [rfindChar] at h
  rcases hf : findChar c l.reverse with _ | jr
  · rw [hf] at h
    cases h
  · rw [hf] at h
    have hj : l.length - 1 - jr = j := by
      have := h
      injection this
    have hdec := findChar_some_decomp hf
    have hnm := findChar_not_mem_take hf
    have hlen := findChar_lt_length hf
    rw [List.length_reverse] at hlen
    refine ⟨(l.reverse.drop (jr + 1)).reverse, (l.reverse.take jr).reverse, ?_, ?_, ?_⟩
    · calc l = l.reverse.reverse := by simp
        _ = (l.reverse.take jr ++ c :: l.reverse.drop (jr + 1)).reverse := by
              rw [← hdec]
        _ = (l.reverse.drop (jr + 1)).reverse ++ c :: (l.reverse.take jr).reverse := by
              simp
    · simp only [List.length_reverse, List.length_drop]
      omega
    · simpa [List.mem_reverse] using hnm

lemma splitParams_clean {url v w : Str} (h : splitParams url = (v, w)) :
    splitParams v = (v, []) := by
  rcases hrf : rfindChar '/' url with _ | j
  · have hslash : '/' ∉ url := rfindChar_eq_none.mp hrf
    rcases hfs : findChar ';' url with _ | i
    · have hcomp : splitParams url = (url, []) := by
        simp only [splitParams, hrf, hfs]
      have hvw : (v, w) = (url, ([] : Str)) := by rw [← h, hcomp]
      injection hvw with hv hw
      subst hv
      exact hcomp
    · have hcomp : splitParams url = (url.take i, url.drop (i + 1)) := by
        simp only [splitParams, hrf, hfs]
      have hvw : (v, w) = (url.take i, url.drop (i + 1)) := by rw [← h, hcomp]
      injection hvw with hv hw
      subst hv
      have hs2 : '/' ∉ url.take i := fun hm => hslash (List.take_subset i url hm)
      have hsemi : (';' : Char) ∉ url.take i := findChar_not_mem_take hfs
      simp only [splitParams, rfindChar_eq_none.mpr hs2, findChar_eq_none.mpr hsemi]
  · obtain ⟨A, B, hurl, hA, hB⟩ := rfindChar_some_decomp hrf
    rcases hff : findCharFrom ';' j url with _ | i
    · have hcomp : splitParams url = (url, []) := by
        simp only [splitParams, hrf, hff]
      have hvw : (v, w) = (url, ([] : Str)) := by rw [← h, hcomp]
      injection hvw with hv hw
      subst hv
      exact hcomp
    · have hcomp : splitParams url = (url.take i, url.drop (i + 1)) := by
        simp only [splitParams, hrf, hff]
      have hvw : (v, w) = (url.take i, url.drop (i + 1)) := by rw [← h, hcomp]
      injection hvw with hv hw
      subst hv
      -- unpack the first `;` at or after the last `/`
      obtain ⟨k, hk, hkj⟩ := Option.map_eq_some'.mp hff
      have hdropj : url.drop j = '/' :: B := by
        rw [hurl, ← hA, List.drop_left]
      rw [hdropj] at hk
      rw [findChar, if_neg (by decide)] at hk
      obtain ⟨k2, hk2, hk21⟩ := Option.map_eq_some'.mp hk
      have hAj : A.length = j := hA
      have hi : i = A.length + (k2 + 1) := by omega
      have htake : url.take i = A ++ '/' :: B.take k2 := by
        rw [hurl, List.take_append_eq_append_take,
          List.take_of_length_le (by omega : A.length ≤ i)]
        congr 1
        have hsub : i - A.length = k2 + 1 := by omega
        rw [hsub, List.take_succ_cons]
      have hBk : '/' ∉ B.take k2 := fun hm => hB (List.take_subset _ _ hm)
      have hSemi : (';' : Char) ∉ B.take k2 := findChar_not_mem_take hk2
      have hrfv : rfindChar '/' (A ++ '/' :: B.take k2) = some A.length :=
        rfindChar_append_of_not_mem A _ hBk
      have hffv : findCharFrom ';' A.length (A ++ '/' :: B.take k2) = none := by
        rw [findCharFrom, List.drop_left, findChar, if_neg (by decide),
          findChar_eq_none.mpr hSemi]
        rfl
      rw [htake]
      simp only [splitParams, hrfv, hffv]

lemma contains_true_of_mem {l : Str} {c : Char} (h : c ∈ l) : l.contains c = true :=
  List.elem_iff.mpr h

lemma not_mem_of_contains_ne_true {l : Str} {c : Char} (h : ¬l.contains c = true) :
    c ∉ l :=
  fun hm => h (contains_true_of_mem hm)

lemma prefix_head_eq {w v : Str} (h : w <+: v) (hw : w ≠ []) : v.head? = w.head? := by
  obtain ⟨t, rfl⟩ := h
  cases w with
  | nil => exact absurd rfl hw
  | cons x xs => rfl

lemma prefix_headD_eq {w v : Str} (h : w <+: v) (hw : w ≠ []) (d : Char) :
    v.headD d = w.headD d := by
  obtain ⟨t, rfl⟩ := h
  cases w with
  | nil => exact absurd rfl hw
  | cons x xs => rfl

lemma prefix_take_eq {w v : Str} (h : w <+: v) {n : Nat} (hn : n ≤ w.length) :
    v.take n = w.take n := by
  obtain ⟨t, rfl⟩ := h
  exact List.take_append_of_le_length hn

lemma takeWhile_append_all {p : Char → Bool} :
    ∀ {a : Str} (b : Str), (∀ x ∈ a, p x = true) →
      (a ++ b).takeWhile p = a ++ b.takeWhile p := by
  intro a
  induction a with
  | nil => intro b _; rfl
  | cons x xs ih =>
    intro b h
    rw [List.cons_append, List.takeWhile_cons, if_pos (h x (by simp)),
      ih b (fun y hy => h y (by simp [hy])), List.cons_append]

lemma dropWhile_append_all {p : Char → Bool} :
    ∀ {a : Str} (b : Str), (∀ x ∈ a, p x = true) →
      (a ++ b).dropWhile p = b.dropWhile p := by
  intro a
  induction a with
  | nil => intro b _; rfl
  | cons x xs ih =>
    intro b h
    rw [List.cons_append, List.dropWhile_cons, if_pos (h x (by simp)),
      ih b (fun y hy => h y (by simp [hy]))]

lemma head_dropWhile_false {p : Char → Bool} :
    ∀ {l : Str} {y : Char}, (l.dropWhile p).head? = some y → p y = false := by
  intro l
  induction l with
  | nil => intro y h; simp at h
  | cons x xs ih =>
    intro y h
    by_cases hx : p x = true
    · rw [List.dropWhile_cons, if_pos hx] at h
      exact ih h
    · rw [List.dropWhile_cons, if_neg hx] at h
      have hxy : x = y := by simpa using h
      subst hxy
      simpa using hx

lemma splitScheme_not_alpha {l : Str}
    (h : ∀ y, l.head? = some y → y.isAlpha = false) : splitScheme l = ([], l) := by
  rcases hf : findChar ':' l with _ | i
  · simp only [splitScheme, hf]
  · simp only [splitScheme, hf]
    rw [if_neg]
    intro hcond
    cases l with
    | nil => simp [findChar] at hf
    | cons x xs =>
      have hx := h x rfl
      have : x.isAlpha = true := by simpa using hcond.2.1
      rw [hx] at this
      cases this

lemma splitScheme_success {u s u2 : Str} (h : splitScheme u = (s, u2)) (hs : s ≠ []) :
    ∃ i, findChar ':' u = some i ∧ 0 < i ∧ (u.headD ' ').isAlpha = true ∧
      (((u.take i).drop 1).all isSchemeChar) = true ∧
      s = (u.take i).map Char.toLower ∧ u2 = u.drop (i + 1) := by
  rcases hf : findChar ':' u with _ | i
  · simp only [splitScheme, hf] at h
    injection h with h1 h2
    exact absurd h1.symm hs
  · simp only [splitScheme, hf] at h
    split at h
    case isTrue hcond =>
      injection h with h1 h2
      exact ⟨i, rfl, hcond.1, hcond.2.1, hcond.2.2, h1.symm, h2.symm⟩
    case isFalse hcond =>
      injection h with h1 h2
      exact absurd h1.symm hs

lemma splitScheme_nil_eq {u s u2 : Str} (h : splitScheme u = (s, u2)) (hs : s = []) :
    u2 = u ∧ splitScheme u = ([], u) := by
  subst hs
  rcases hf : findChar ':' u with _ | i
  · simp only [splitScheme, hf] at h
    injection h with h1 h2
    exact ⟨h2.symm, by simp only [splitScheme, hf]⟩
  · simp only [splitScheme, hf] at h
    split at h
    case isTrue hcond =>
      exfalso
      injection h with h1 h2
      have hlen := findChar_lt_length hf
      have hmap : ((u.take i).map Char.toLower).length = 0 := by rw [h1]; rfl
      rw [List.length_map, List.length_take] at hmap
      omega
    case isFalse hcond =>
      injection h with h1 h2
      exact ⟨h2.symm, by simp only [splitScheme, hf]; rw [if_neg hcond]⟩

lemma splitScheme_snd_subset {u s u2 : Str} (h : splitScheme u = (s, u2)) : u2 ⊆ u := by
  by_cases hs : s = []
  · rw [(splitScheme_nil_eq h hs).1]
    exact fun a ha => ha
  · obtain ⟨i, _, _, _, _, _, hu2⟩ := splitScheme_success h hs
    rw [hu2]
    exact List.drop_subset _ _

lemma splitScheme_prefix {u w2 : Str} (h : splitScheme u = ([], u)) (hw : w2 <+: u) :
    splitScheme w2 = ([], w2) := by
  rcases hfw : findChar ':' w2 with _ | j
  · simp only [splitScheme, hfw]
  · have hfu : findChar ':' u = some j := by
      obtain ⟨t, rfl⟩ := hw
      exact findChar_append_some t hfw
    simp only [splitScheme, hfw]
    rw [if_neg]
    intro hcond
    obtain ⟨h1, h2, h3⟩ := hcond
    have hwne : w2 ≠ [] := by
      intro he
      subst he
      simp [findChar] at hfw
    have hjlt : j < w2.length := findChar_lt_length hfw
    have hhead : u.headD ' ' = w2.headD ' ' := prefix_headD_eq hw hwne ' '
    have htk : u.take j = w2.take j := prefix_take_eq hw (le_of_lt hjlt)
    simp only [splitScheme, hfu] at h
    rw [if_pos ⟨h1, by rw [hhead]; exact h2, by rw [htk]; exact h3⟩] at h
    injection h with ha hb
    have hmap : ((u.take j).map Char.toLower).length = 0 := by rw [ha]; rfl
    rw [List.length_map, List.length_take] at hmap
    have hlen : w2.length ≤ u.length := hw.length_le
    omega

lemma scheme_good {u : Str} {i : Nat} (hf : findChar ':' u = some i) (h1 : 0 < i)
    (h2 : (u.headD ' ').isAlpha = true)
    (h3 : (((u.take i).drop 1).all isSchemeChar) = true) :
    (((u.take i).map Char.toLower).headD ' ').isAlpha = true ∧
      ((u.take i).map Char.toLower).all isSchemeChar = true ∧
      ((u.take i).map Char.toLower).map Char.toLower =
        (u.take i).map Char.toLower := by
  cases u with
  | nil => simp [findChar] at hf
  | cons x xs =>
    have hx : x.isAlpha = true := by simpa using h2
    rcases i with _ | n
    · omega
    · have htake : (x :: xs).take (n + 1) = x :: xs.take n := List.take_succ_cons
      rw [htake] at h3 ⊢
      have h3' : (xs.take n).all isSchemeChar = true := by simpa using h3
      have hallmem : ∀ y ∈ x :: xs.take n, isSchemeChar y = true := by
        intro y hy
        rcases List.mem_cons.mp hy with he | he
        · subst he
          exact isSchemeChar_of_alpha hx
        · exact List.all_eq_true.mp h3' y he
      refine ⟨?_, ?_, ?_⟩
      · simpa using (toLower_isAlpha x hx).1
      · rw [List.all_eq_true]
        intro y hy
        rcases List.mem_map.mp hy with ⟨z, hz, hzy⟩
        rw [← hzy]
        exact (toLower_schemeChar z (hallmem z hz)).1
      · rw [List.map_map]
        refine List.map_congr_left ?_
        intro z hz
        exact (toLower_schemeChar z (hallmem z hz)).2

lemma splitFirst_facts (ch : Char) (v : Str) :
    ((if v.contains ch then splitOnFirst ch v else (v, [])).1 <+: v) ∧
    ∀ c ∈ (if v.contains ch then splitOnFirst ch v else (v, [])).1, c ≠ ch := by
  by_cases hc : v.contains ch = true
  · rw [if_pos hc]
    constructor
    · exact List.takeWhile_prefix _
    · intro c hm
      have := List.mem_takeWhile_imp hm
      simpa using this
  · rw [if_neg hc]
    refine ⟨⟨[], by simp⟩, ?_⟩
    intro c hm he
    subst he
    exact hc (contains_true_of_mem hm)

lemma splitNetloc_cases (v : Str) :
    (splitNetloc v = ([], v) ∧ ¬(v.take 2 = ['/', '/'])) ∨
    (v.take 2 = ['/', '/'] ∧ splitNetloc v =
      ((v.drop 2).takeWhile (fun c => !isNetlocStop c),
       (v.drop 2).dropWhile (fun c => !isNetlocStop c))) := by
  by_cases hv : v.take 2 = ['/', '/']
  · exact Or.inr ⟨hv, by rw [splitNetloc, if_pos hv]⟩
  · exact Or.inl ⟨by rw [splitNetloc, if_neg hv], hv⟩

lemma splitParams_fst_prefix (url : Str) : (splitParams url).1 <+: url := by
  rcases hrf : rfindChar '/' url with _ | j
  · rcases hfs : findChar ';' url with _ | i
    · simp only [splitParams, hrf, hfs]
      exact ⟨[], by simp⟩
    · simp only [splitParams, hrf, hfs]
      exact List.take_prefix _ _
  · rcases hff : findCharFrom ';' j url with _ | i
    · simp only [splitParams, hrf, hff]
      exact ⟨[], by simp⟩
    · simp only [splitParams, hrf, hff]
      exact List.take_prefix _ _

lemma urlsplit_good {u : Str} {r : SplitResult} (h : urlsplit u = some r) :
    GoodSplit r := by
  have hu1safe : ∀ c ∈ removeUnsafe u, ¬(c = '\t' ∨ c = '\r' ∨ c = '\n') := by
    intro c hc
    have h2 := (List.mem_filter.mp hc).2
    intro hor
    rcases hor with he | he | he <;> subst he <;> simp at h2
  rcases hsp : splitScheme (removeUnsafe u) with ⟨s, u2⟩
  have hu2sub : u2 ⊆ removeUnsafe u := splitScheme_snd_subset hsp
  rcases hnp : splitNetloc u2 with ⟨n, u3⟩
  simp only [urlsplit, hsp, hnp] at h
  split at h
  case isTrue => cases h
  case isFalse hguard =>
  injection h with h2
  subst h2
  obtain ⟨hfp_pre, hfp_ne⟩ := splitFirst_facts '#' u3
  obtain ⟨hqp_pre, hqp_ne⟩ :=
    splitFirst_facts '?' (if u3.contains '#' then splitOnFirst '#' u3 else (u3, [])).1
  generalize hP :
    (if (if u3.contains '#' then splitOnFirst '#' u3 else (u3, [])).1.contains '?'
      then splitOnFirst '?' (if u3.contains '#' then splitOnFirst '#' u3
        else (u3, [])).1
      else ((if u3.contains '#' then splitOnFirst '#' u3 else (u3, [])).1, [])).1
      = P at hqp_pre hqp_ne ⊢
  generalize hF :
    (if u3.contains '#' then splitOnFirst '#' u3 else (u3, [])).1 = F
      at hfp_pre hfp_ne hqp_pre
  have hpath_pre : P <+: u3 := hqp_pre.trans hfp_pre
  have hu3sub : u3 ⊆ u2 := by
    rcases splitNetloc_cases u2 with ⟨hcase, _⟩ | ⟨_, hcase⟩ <;>
      have heq := hnp.symm.trans hcase
    · injection heq with hn hu3
      rw [hu3]
      exact fun a ha => ha
    · injection heq with hn hu3
      rw [hu3]
      intro a ha
      exact List.drop_subset 2 u2 ((List.dropWhile_sublist _).subset ha)
  -- head of the path is a netloc stop character when the netloc was split off
  have hstop_head : u2.take 2 = ['/', '/'] → P ≠ [] → P.head? = some '/' := by
    intro htk2 hpnil
    rcases splitNetloc_cases u2 with ⟨_, hne2⟩ | ⟨_, hcase⟩
    · exact absurd htk2 hne2
    · have heq := hnp.symm.trans hcase
      injection heq with hn2 hu3eq
      rcases hph : P.head? with _ | y
      · exact absurd (List.head?_eq_none_iff.mp hph) hpnil
      · have hhead : u3.head? = some y :=
          (prefix_head_eq hpath_pre hpnil).trans hph
        have hstop : isNetlocStop y = true := by
          rw [hu3eq] at hhead
          have := head_dropWhile_false hhead
          simpa using this
        have hymem : y ∈ P := List.mem_of_mem_head? (by rw [hph]; rfl)
        have hy1 : y ≠ '#' := hfp_ne y (hqp_pre.subset hymem)
        have hy2 : y ≠ '?' := hqp_ne y hymem
        have hy3 : y = '/' := by
          simp only [isNetlocStop, Bool.or_eq_true, decide_eq_true_eq] at hstop
          rcases hstop with (h | h) | h
          · exact h
          · exact absurd h hy2
          · exact absurd h hy1
        rw [hy3]
  constructor
  -- scheme_ok
  · by_cases hs : s = []
    · exact Or.inl hs
    · obtain ⟨i, hf, h1, hh2, hh3, hseq, _⟩ := splitScheme_success hsp hs
      obtain ⟨g1, g2, g3⟩ := scheme_good hf h1 hh2 hh3
      rw [hseq]
      exact Or.inr ⟨g1, g2, g3⟩
  -- netloc_stop
  · intro c hc
    rcases splitNetloc_cases u2 with ⟨hcase, _⟩ | ⟨_, hcase⟩ <;>
      have heq := hnp.symm.trans hcase
    · injection heq with hn _
      rw [hn] at hc
      cases hc
    · injection heq with hn _
      rw [hn] at hc
      have := List.mem_takeWhile_imp hc
      simpa using this
  -- netloc_safe
  · intro c hc
    rcases splitNetloc_cases u2 with ⟨hcase, _⟩ | ⟨_, hcase⟩ <;>
      have heq := hnp.symm.trans hcase
    · injection heq with hn _
      rw [hn] at hc
      cases hc
    · injection heq with hn _
      rw [hn] at hc
      have hmem : c ∈ u2 :=
        List.drop_subset 2 u2 ((List.takeWhile_prefix _).subset hc)
      exact hu1safe c (hu2sub hmem)
  -- netloc_brackets
  · cases hb : ((n.contains '[' && !n.contains ']') ||
        (n.contains ']' && !n.contains '[')) with
    | false => rfl
    | true => exact absurd hb hguard
  -- path_ok
  · intro c hc
    refine ⟨hfp_ne c (hqp_pre.subset hc), hqp_ne c hc, ?_⟩
    exact hu1safe c (hu2sub (hu3sub (hpath_pre.subset hc)))
  -- netloc_path
  · intro hn
    by_cases hpnil : P = []
    · exact Or.inl hpnil
    · right
      rcases splitNetloc_cases u2 with ⟨hcase, _⟩ | ⟨htk2, _⟩
      · have heq := hnp.symm.trans hcase
        injection heq with hn2 _
        exact absurd hn2 hn
      · exact hstop_head htk2 hpnil
  -- no_scheme_path
  · intro hs hn
    obtain ⟨hu2eq, hschemeU⟩ := splitScheme_nil_eq hsp hs
    rcases splitNetloc_cases u2 with ⟨hcase, _⟩ | ⟨htk2, _⟩
    · have heq := hnp.symm.trans hcase
      injection heq with _ hu3eq
      refine splitScheme_prefix hschemeU ?_
      rw [hu3eq, hu2eq] at hpath_pre
      exact hpath_pre
    · by_cases hpnil : P = []
      · rw [hpnil]
        rfl
      · have hph := hstop_head htk2 hpnil
        refine splitScheme_not_alpha ?_
        intro y' hy'
        rw [hph] at hy'
        injection hy' with hyy
        rw [← hyy]
        decide

lemma urlparse_good {u : Str} {p : ParseResult} (h : urlparse u = some p) :
    GoodParse p := by
  rcases hsplit : urlsplit u with _ | r
  · rw [urlparse, hsplit] at h
    cases h
  · have hg := urlsplit_good hsplit
    rw [urlparse, hsplit, Option.map_some'] at h
    injection h with h2
    subst h2
    by_cases hpar : usesParams r.scheme = true ∧ r.path.contains ';' = true
    · rw [if_pos hpar]
      show GoodParse ⟨r.scheme, r.netloc, (splitParams r.path).1,
        (splitParams r.path).2, r.query, r.fragment⟩
      have hclean : splitParams (splitParams r.path).1 = ((splitParams r.path).1, []) :=
        splitParams_clean (show splitParams r.path =
          ((splitParams r.path).1, (splitParams r.path).2) from rfl)
      have hpre : (splitParams r.path).1 <+: r.path := splitParams_fst_prefix r.path
      constructor
      · exact hg.scheme_ok
      · exact hg.netloc_stop
      · exact hg.netloc_safe
      · exact hg.netloc_brackets
      · exact fun c hc => hg.path_ok c (hpre.subset hc)
      · intro hn
        rcases hg.netloc_path hn with hnil | hhead
        · left
          obtain ⟨t, ht⟩ := hpre
          exact (List.append_eq_nil.mp (ht.trans hnil)).1
        · by_cases hpn : (splitParams r.path).1 = []
          · exact Or.inl hpn
          · right
            rw [prefix_head_eq hpre hpn] at hhead
            exact hhead
      · intro _ _
        exact hclean
      · intro hs hn
        exact splitScheme_prefix (hg.no_scheme_path hs hn) hpre
    · rw [if_neg hpar]
      show GoodParse ⟨r.scheme, r.netloc, r.path, [], r.query, r.fragment⟩
      constructor
      · exact hg.scheme_ok
      · exact hg.netloc_stop
      · exact hg.netloc_safe
      · exact hg.netloc_brackets
      · exact hg.path_ok
      · exact hg.netloc_path
      · intro h1 h2
        exact absurd ⟨h1, h2⟩ hpar
      · exact hg.no_scheme_path

lemma splitScheme_core {s core : Str} (hhead : (s.headD ' ').isAlpha = true)
    (hall : s.all isSchemeChar = true) (hlow : s.map Char.toLower = s)
    (hs : s ≠ []) : splitScheme (s ++ ':' :: core) = (s, core) := by
  have hnc : (':' : Char) ∉ s :=
    fun hm => (schemeChar_ne (List.all_eq_true.mp hall _ hm)).1 rfl
  have hf : findChar ':' (s ++ ':' :: core) = some s.length := by
    rw [findChar_append_of_not_mem _ hnc, findChar_cons_self]
    simp
  have hdrop : (s ++ ':' :: core).drop (s.length + 1) = core := by
    rw [show s ++ ':' :: core = (s ++ [':']) ++ core by simp,
      show s.length + 1 = (s ++ [':']).length by simp, List.drop_left]
  simp only [splitScheme, hf]
  rw [if_pos]
  · rw [List.take_left, hlow, hdrop]
  · refine ⟨List.length_pos.mpr hs, ?_, ?_⟩
    · have hh : (s ++ ':' :: core).headD ' ' = s.headD ' ' := by
        cases s with
        | nil => exact absurd rfl hs
        | cons x t => rfl
      rw [hh]
      exact hhead
    · rw [List.take_left, List.all_eq_true]
      intro x hx
      exact List.all_eq_true.mp hall x (List.drop_subset 1 s hx)

lemma splitNetloc_core {n pa : Str} (hstop : ∀ c ∈ n, isNetlocStop c = false)
    (hpa : pa = [] ∨ pa.head? = some '/') :
    splitNetloc ('/' :: '/' :: (n ++ pa)) = (n, pa) := by
  have htk2 : ('/' :: '/' :: (n ++ pa)).take 2 = ['/', '/'] := rfl
  rw [splitNetloc, if_pos htk2]
  have hdrop : ('/' :: '/' :: (n ++ pa)).drop 2 = n ++ pa := rfl
  rw [hdrop]
  have htw : (n ++ pa).takeWhile (fun c => !isNetlocStop c) = n ++
      pa.takeWhile (fun c => !isNetlocStop c) :=
    takeWhile_append_all pa (fun x hx => by rw [hstop x hx]; rfl)
  have hdw : (n ++ pa).dropWhile (fun c => !isNetlocStop c) =
      pa.dropWhile (fun c => !isNetlocStop c) :=
    dropWhile_append_all pa (fun x hx => by rw [hstop x hx]; rfl)
  have hpa_tw : pa.takeWhile (fun c => !isNetlocStop c) = [] := by
    rcases hpa with hnil | hhead
    · rw [hnil]
      rfl
    · cases pa with
      | nil => rfl
      | cons x t =>
        have hx : x = '/' := by
          injection hhead
        rw [hx, List.takeWhile_cons, if_neg (by decide)]
  have hpa_dw : pa.dropWhile (fun c => !isNetlocStop c) = pa := by
    rcases hpa with hnil | hhead
    · rw [hnil]
      rfl
    · cases pa with
      | nil => rfl
      | cons x t =>
        have hx : x = '/' := by
          injection hhead
        rw [hx, List.dropWhile_cons, if_neg (by decide)]
  rw [htw, hdw, hpa_tw, hpa_dw, List.append_nil]

lemma urlsplit_eval {r rest s n pa : Str}
    (h0 : removeUnsafe r = r)
    (h1 : splitScheme r = (s, rest))
    (h2 : splitNetloc rest = (n, pa))
    (h3 : ((n.contains '[' && !n.contains ']') ||
           (n.contains ']' && !n.contains '[')) = false)
    (h4 : pa.contains '#' = false) (h5 : pa.contains '?' = false) :
    urlsplit r = some ⟨s, n, pa, [], []⟩ := by
  simp only [urlsplit, h0, h1, h2]
  rw [if_neg (fun hc => absurd (h3.symm.trans hc) (by decide)),
    if_neg (fun hc => absurd (h4.symm.trans hc) (by decide)),
    if_neg (fun hc => absurd (h5.symm.trans hc) (by decide))]

lemma urlparse_eval {r s n pa : Str}
    (hsplit : urlsplit r = some ⟨s, n, pa, [], []⟩)
    (hparams : usesParams s = true → pa.contains ';' = true →
      splitParams pa = (pa, [])) :
    urlparse r = some ⟨s, n, pa, [], [], []⟩ := by
  rw [urlparse, hsplit, Option.map_some']
  by_cases hpar : usesParams s = true ∧ pa.contains ';' = true
  · rw [if_pos hpar]
    simp [hparams hpar.1 hpar.2]
  · rw [if_neg hpar]

lemma urlunparse_eval (s n pa : Str) :
    urlunparse s n pa [] [] [] =
      if s ≠ [] then
        s ++ ':' :: (if n ≠ [] ∨ (pa ≠ [] ∧ pa.take 2 = ['/', '/']) then
          '/' :: '/' :: (n ++
            (if pa ≠ [] ∧ pa.take 1 ≠ ['/'] then '/' :: pa else pa))
        else pa)
      else (if n ≠ [] ∨ (pa ≠ [] ∧ pa.take 2 = ['/', '/']) then
          '/' :: '/' :: (n ++
            (if pa ≠ [] ∧ pa.take 1 ≠ ['/'] then '/' :: pa else pa))
        else pa) := by
  simp only [urlunparse, urlunsplit, ne_eq, not_true_eq_false, if_false,
    ite_self]
  split
  · split <;> rfl
  · rfl

lemma rebuild_parse {p : ParseResult} (hp : GoodParse p) :
    urlparse (urlunparse p.scheme p.netloc p.path [] [] []) =
      some ⟨p.scheme, p.netloc, p.path, [], [], []⟩ := by
  have hkeep : ∀ (c : Char), ¬(c = '\t' ∨ c = '\r' ∨ c = '\n') →
      (!(c = '\t' || c = '\r' || c = '\n')) = true := by
    intro c h
    simp only [not_or] at h
    simp [h.1, h.2.1, h.2.2]
  have hsafe_s : ∀ c ∈ p.scheme, ¬(c = '\t' ∨ c = '\r' ∨ c = '\n') := by
    intro c hc
    rcases hp.scheme_ok with hnil | ⟨_, hall, _⟩
    · rw [hnil] at hc
      cases hc
    · obtain ⟨_, h1, h2, h3⟩ := schemeChar_ne (List.all_eq_true.mp hall c hc)
      intro hor
      rcases hor with he | he | he
      · exact h1 he
      · exact h2 he
      · exact h3 he
  have h4 : p.path.contains '#' = false := by
    cases hb : p.path.contains '#' with
    | false => rfl
    | true => exact absurd rfl ((hp.path_ok '#' (List.elem_iff.mp hb)).1)
  have h5 : p.path.contains '?' = false := by
    cases hb : p.path.contains '?' with
    | false => rfl
    | true => exact absurd rfl ((hp.path_ok '?' (List.elem_iff.mp hb)).2.1)
  have hpa_head : (p.netloc ≠ [] ∨ (p.path ≠ [] ∧ p.path.take 2 = ['/', '/'])) →
      (p.path = [] ∨ p.path.head? = some '/') := by
    intro hC
    by_cases hpa : p.path = []
    · exact Or.inl hpa
    · right
      rcases hC with hn | ⟨_, htk⟩
      · rcases hp.netloc_path hn with h0 | h0
        · exact absurd h0 hpa
        · exact h0
      · cases hpp : p.path with
        | nil => exact absurd hpp hpa
        | cons x t =>
          rw [hpp] at htk
          have h1 : ((x :: t).take 2).head? = some x := rfl
          rw [htk] at h1
          injection h1 with h1e
          exact congrArg some h1e.symm
  have hfix : (p.netloc ≠ [] ∨ (p.path ≠ [] ∧ p.path.take 2 = ['/', '/'])) →
      (if p.path ≠ [] ∧ p.path.take 1 ≠ ['/'] then '/' :: p.path else p.path) =
        p.path := by
    intro hC
    rcases hpa_head hC with hnil | hhead
    · rw [if_neg]
      intro hcond
      exact hcond.1 hnil
    · cases hpp : p.path with
      | nil =>
        rw [if_neg]
        intro hcond
        exact hcond.1 rfl
      | cons x t =>
        rw [hpp] at hhead
        injection hhead with hx
        rw [if_neg]
        intro hcond
        apply hcond.2
        rw [hx]
        rfl
  have hcore_mem : ∀ c ∈ ('/' :: '/' :: (p.netloc ++ p.path)),
      ¬(c = '\t' ∨ c = '\r' ∨ c = '\n') := by
    intro c hc
    rcases List.mem_cons.mp hc with he | hc2
    · subst he
      decide
    rcases List.mem_cons.mp hc2 with he | hc3
    · subst he
      decide
    rcases List.mem_append.mp hc3 with hcn | hcp
    · exact hp.netloc_safe c hcn
    · exact (hp.path_ok c hcp).2.2
  by_cases hC : p.netloc ≠ [] ∨ (p.path ≠ [] ∧ p.path.take 2 = ['/', '/'])
  · have hcore : urlunparse p.scheme p.netloc p.path [] [] [] =
        (if p.scheme ≠ [] then
          p.scheme ++ ':' :: ('/' :: '/' :: (p.netloc ++ p.path))
        else '/' :: '/' :: (p.netloc ++ p.path)) := by
      rw [urlunparse_eval, if_pos hC, hfix hC]
    have hnl := splitNetloc_core hp.netloc_stop (hpa_head hC)
    have hsafe_core : removeUnsafe ('/' :: '/' :: (p.netloc ++ p.path)) =
        '/' :: '/' :: (p.netloc ++ p.path) :=
      List.filter_eq_self.mpr (fun c hc => hkeep c (hcore_mem c hc))
    by_cases hs : p.scheme = []
    · rw [hcore, if_neg (fun hcon => hcon hs), hs]
      refine urlparse_eval (urlsplit_eval hsafe_core ?_ hnl hp.netloc_brackets
        h4 h5) (fun h1 h2 => hp.params_clean (by rw [hs]; exact h1) h2)
      refine splitScheme_not_alpha ?_
      intro y hy
      injection hy with hye
      rw [← hye]
      decide
    · rcases hp.scheme_ok with hnil | ⟨hh, hall, hlow⟩
      · exact absurd hnil hs
      rw [hcore, if_pos hs]
      refine urlparse_eval (urlsplit_eval ?_
        (splitScheme_core hh hall hlow hs) hnl hp.netloc_brackets h4 h5)
        hp.params_clean
      refine List.filter_eq_self.mpr ?_
      intro c hc
      refine hkeep c ?_
      rcases List.mem_append.mp hc with hcs | hcr
      · exact hsafe_s c hcs
      rcases List.mem_cons.mp hcr with he | hcr2
      · subst he
        decide
      · exact hcore_mem c hcr2
  · have hcore : urlunparse p.scheme p.netloc p.path [] [] [] =
        (if p.scheme ≠ [] then p.scheme ++ ':' :: p.path else p.path) := by
      rw [urlunparse_eval, if_neg hC]
    push_neg at hC
    obtain ⟨hn_nil, hnot2⟩ := hC
    have hnl2 : splitNetloc p.path = ([], p.path) := by
      rw [splitNetloc, if_neg]
      intro htk
      by_cases hpa : p.path = []
      · rw [hpa] at htk
        exact absurd htk (by decide)
      · exact absurd htk (hnot2 hpa)
    have hsafe_pa : removeUnsafe p.path = p.path :=
      List.filter_eq_self.mpr
        (fun c hc => hkeep c ((hp.path_ok c hc).2.2))
    by_cases hs : p.scheme = []
    · rw [hcore, if_neg (fun hcon => hcon hs), hs, hn_nil]
      refine urlparse_eval (urlsplit_eval hsafe_pa
        (hp.no_scheme_path hs hn_nil) hnl2 (by decide) h4 h5)
        (fun h1 h2 => hp.params_clean (by rw [hs]; exact h1) h2)
    · rcases hp.scheme_ok with hnil | ⟨hh, hall, hlow⟩
      · exact absurd hnil hs
      rw [hcore, if_pos hs, hn_nil]
      refine urlparse_eval (urlsplit_eval ?_
        (splitScheme_core hh hall hlow hs) hnl2 (by decide) h4 h5)
        hp.params_clean
      refine List.filter_eq_self.mpr ?_
      intro c hc
      refine hkeep c ?_
      rcases List.mem_append.mp hc with hcs | hcr
      · exact hsafe_s c hcs
      rcases List.mem_cons.mp hcr with he | hcr2
      · subst he
        decide
      · exact (hp.path_ok c hcr2).2.2

/-- C7: `normalize_url` is idempotent: whenever `normalize_url u` returns a
result `r`, normalizing `r` again returns `r` unchanged.  Moreover `r` is
rebuilt from exactly the scheme, authority (netloc) and path of the parse of
`u`, and re-parsing `r` preserves the netloc and path while its query and
fragment are empty (they were discarded). -/
theorem normalize_url_idempotent (u r : Str) (h : normalize_url u = some r) :
    normalize_url r = some r ∧
    ∀ p, urlparse u = some p →
      r = urlunparse p.scheme p.netloc p.path [] [] [] ∧
      (r ≠ [] → urlparse r = some ⟨p.scheme, p.netloc, p.path, [], [], []⟩) := by
  by_cases hu : u = []
  · subst hu
    rw [normalize_url] at h
    simp only [if_pos rfl] at h
    injection h with hr
    subst hr
    refine ⟨rfl, ?_⟩
    intro p hp
    have : p = ⟨[], [], [], [], [], []⟩ := by
      rw [show urlparse [] = some ⟨[], [], [], [], [], []⟩ from rfl] at hp
      injection hp with hpe
      exact hpe.symm
    subst this
    exact ⟨rfl, fun hne => absurd rfl hne⟩
  · rw [normalize_url, if_neg hu] at h
    rcases hparse : urlparse u with _ | p
    · rw [hparse] at h
      cases h
    · rw [hparse, Option.map_some'] at h
      injection h with hr
      have hg : GoodParse p := urlparse_good hparse
      have hre := rebuild_parse hg
      constructor
      · by_cases hrnil : r = []
        · rw [hrnil]
          rfl
        · rw [normalize_url, if_neg hrnil, ← hr, hre, Option.map_some']
      · intro p2 hp2
        injection hp2 with hp2e
        subst hp2e
        refine ⟨hr.symm, fun _ => ?_⟩
        rw [← hr]
        exact hre

/-- Witness for C7 at a concrete URL with query and fragment. -/
theorem normalize_url_idempotent_witness :
    normalize_url (chars "https://example.com/job") =
      some (chars "https://example.com/job") := by
  exact (normalize_url_idempotent (chars "https://example.com/job?id=123#section")
    (chars "https://example.com/job") (by decide)).1

end JobScraper
